import Mathlib

/-!
# Verification of the memory-profiler tracer (`Tracer/src`)

A shallow embedding, in Lean 4, of the parts of the tracer that the
specification's checkable sentences talk about:

* the single-octet event-tag encoding (`tracer.h`, `Operation`);
* the remote stack unwinder loop (`trace_data.cpp`, `get_stack_trace`);
* record construction and enqueueing (`trace_data.cpp`, `TraceData::add`);
* the record-store worker loop (`trace_data.cpp`, `TraceData::start`);
* name interning and stream framing (`trace_data.cpp`, `set_name_index`
  and `TraceData::process`);
* the breakpoint bookkeeping and the entry/return pairing protocol
  (`debugger.h`, `add_breakpoint`, `reset_breakpoint`, `on_mmap_result`,
  `trace_breakpoint`);
* the library-name filter of the `mmap` invoke hook (`debugger.h`,
  `on_mmap_invoke`);
* the ELF symbol-table walk (`target_loader.cpp`, `parse_elf_file`).

Machine integers are modelled as `Nat` with explicit `% 2^w` where the C++
code can truncate; fallible operations return `Option` or a `Bool` paired
with their observable output.  External effects (ptrace reads, libunwind
steps, dwfl lookups, queue-push success) enter the definitions as explicit
parameters, so that every embedded function is a pure, executable Lean
function of its inputs.
-/

namespace MemProfiler

/-! ## Operation tags (`tracer.h`: `op_type`, `Operation`, `IsInvoke`, `GetOperation`) -/

/-- Number of operation kinds: `op_type::_TYPE_COUNT` (the 21 heap-affecting
kinds plus the reserved `UNKNOWN = 0`). -/
def opTypeCount : Nat := 22

/-- `Operation::invoke()`: `static_cast<uint8_t>(type_) << 1`, the result being
returned as a `uint8_t` (hence the `% 256`). -/
def opInvokeTag (k : Nat) : Nat := (k * 2) % 256

/-- `Operation::result()`: `(static_cast<uint8_t>(type_) << 1) | 1`, returned
as a `uint8_t`. -/
def opResultTag (k : Nat) : Nat := (k * 2 + 1) % 256

/-- `IsInvoke(tag)`: `(tag & 1) == 0`. -/
def IsInvoke (tag : Nat) : Bool := tag % 2 == 0

/-- `GetOperation(tag)`: `static_cast<op_type>(tag >> 1)`, as the kind's
numeric value. -/
def GetOperation (tag : Nat) : Nat := tag / 2

/-- `TraceData::FILE_NAME_ENTRY = Operation(op_type::UNKNOWN).invoke()`. -/
def FILE_NAME_ENTRY : Nat := opInvokeTag 0

/-- `TraceData::FUNC_NAME_ENTRY = Operation(op_type::UNKNOWN).result()`. -/
def FUNC_NAME_ENTRY : Nat := opResultTag 0

/-! ## Remote stack unwinder (`trace_data.cpp`: `ThreadContext::get_stack_trace`)

The libunwind cursor is abstracted as the instruction pointer it currently
reports plus the list of instruction pointers that successive successful
`unw_step` calls would reveal (`steps`); an exhausted list models
`unw_step <= 0`. -/

/-- `TraceData::STACK_MAX`. -/
def STACK_MAX : Nat := 100

/-- The `do { ... } while (unw_step(&cursor) > 0 && stack_size < STACK_MAX &&
stack_size < max_depth)` loop, after its first (unconditional) iteration has
already pushed the initial instruction pointer into `acc`.  `stack_size` is a
`uint16_t` compared against the `int` cap, which C++ performs in `Int`. -/
def unwindLoop (maxDepth : Int) : List Nat → List Nat → List Nat
  | [], acc => acc
  | ip :: rest, acc =>
    if acc.length < STACK_MAX && (acc.length : Int) < maxDepth then
      unwindLoop maxDepth rest (acc ++ [ip])
    else acc

/-- `ThreadContext::get_stack_trace`: sets `stack_size = 0`, then runs the
do-while loop; the first `unw_get_reg` always records the innermost
instruction pointer `first` before any cap is consulted. -/
def get_stack_trace (first : Nat) (steps : List Nat) (maxDepth : Int) : List Nat :=
  unwindLoop maxDepth steps [first]

/-! ## Record construction (`trace_data.cpp`: `TraceData::add`) -/

/-- The configuration fields `TraceData::add` consults. -/
structure TraceConfig where
  isGetStackTrace : Bool
  maxStackTraceDepth : Int

/-- A queued `TraceInfo` record; `stack_size` is `stack.length`. -/
structure TraceInfo where
  tag : Nat
  tid : Nat
  arg1 : Nat
  arg2 : Nat
  timestamp : Int
  stack : List Nat
deriving DecidableEq, Repr

/-- `TraceData::add`.  `unwind` is the libunwind outcome for this stop:
`none` when `get_stack_trace` would fail to initialise (it then returns
`false` and nothing is enqueued), `some (first, steps)` for a usable cursor.
`pushOk` is the `queue.push` outcome.  The returned value is the record the
queue now holds, or `none` when `add` returned `false` without enqueueing. -/
def TraceData.add (cfg : TraceConfig) (tag tid arg1 arg2 : Nat) (timestamp : Int)
    (unwind : Option (Nat × List Nat)) (pushOk : Bool) : Option TraceInfo :=
  let base : TraceInfo := ⟨tag, tid, arg1, arg2, timestamp, []⟩
  let collected : Option TraceInfo :=
    if IsInvoke tag && cfg.isGetStackTrace then
      match unwind with
      | none => none
      | some (first, steps) =>
        some { base with stack := get_stack_trace first steps cfg.maxStackTraceDepth }
    else
      some base
  match collected with
  | none => none
  | some info => if pushOk then some info else none

/-! ## Worker loop (`trace_data.cpp`: `TraceData::start`, `update_dwfl`) -/

/-- The shared state the worker's loop condition and body read. -/
structure WorkerState where
  stopped : Bool
  queue : List TraceInfo
  needUpdateDwfl : Bool
deriving DecidableEq, Repr

/-- The observable actions of one worker-loop iteration. -/
inductive WorkerAct
  | updateDwfl
  | sleep25ms
  | popProcess
deriving DecidableEq, Repr

/-- The loop condition `!stopped || !queue.empty() || need_update_dwfl`.
The loop body runs exactly when this is `true`; the worker exits exactly when
it is `false`. -/
def workerLoopGuard (s : WorkerState) : Bool :=
  !s.stopped || !s.queue.isEmpty || s.needUpdateDwfl

/-- One iteration of the worker's main loop: service a pending dwfl refresh
first (`update_dwfl` clears `need_update_dwfl` only when the proc report
succeeds, `dwflReportOk`), then either sleep 25 ms on an empty queue or pop
and process one record. -/
def workerIteration (s : WorkerState) (dwflReportOk : Bool) :
    List WorkerAct × WorkerState :=
  let (acts, s1) :=
    if s.needUpdateDwfl then
      ([WorkerAct.updateDwfl], { s with needUpdateDwfl := !dwflReportOk })
    else
      ([], s)
  if s1.queue.isEmpty then
    (acts ++ [WorkerAct.sleep25ms], s1)
  else
    (acts ++ [WorkerAct.popProcess], { s1 with queue := s1.queue.tail })

/-! ## Name interning and stream framing (`trace_data.cpp`: `set_name_index`,
`TraceData::process`, `write_name_entry`, `write_trace_info`)

The two `std::unordered_map<std::string, uint32_t>` name tables assign each
new name the map's current size, so the table is equivalent to the list of
interned names in insertion order, a name's index being its position. -/

/-- A resolved stack frame (`FunctionInfo`): `(file_index, function_index,
line, column)`.  `process` zero-initialises the whole frame array, so a frame
whose module is unknown stays `⟨0, 0, 0, 0⟩`. -/
structure FunctionInfo where
  file_index : Nat
  func_index : Nat
  line_no : Int
  col_no : Int
deriving DecidableEq, Repr

/-- The zero-initialised frame slot (`FunctionInfo stack[STACK_MAX] = {0}`). -/
def zeroFrame : FunctionInfo := ⟨0, 0, 0, 0⟩

/-- The index a name table stores for a name: since every fresh name is
assigned the table's size at insertion time, it is the name's position in
insertion order (`none` when absent). -/
def namePos (n : String) : List String → Option Nat
  | [] => none
  | m :: rest => if m = n then some 0 else (namePos n rest).map (· + 1)

/-- `set_name_index(name, index, names)`: a null `name` becomes `"<nil>"`;
a present name keeps its index and leaves the table alone (returns `false`);
a fresh name is assigned `names.size()` — evaluated before the insertion, so
the k-th distinct name receives index k-1 — and the function returns `true`
(the caller then emits a framing record).  Result:
`(resolved name, index, updated table, is-new)`. -/
def set_name_index (name : Option String) (names : List String) :
    String × Nat × List String × Bool :=
  let n := name.getD "<nil>"
  match namePos n names with
  | some i => (n, i, names, false)
  | none => (n, names.length, names ++ [n], true)

/-- What the symboliser reports for one instruction pointer: `noModule` when
`dwfl_addrmodule` returns null, otherwise the possibly-null function name
(`dwfl_module_addrname`), the possibly-null file name (`dwfl_lineinfo`) and
the line/column values it filled in (initialised to -1). -/
inductive SymResult
  | noModule
  | found (funcName : Option String) (fileName : Option String) (line col : Int)
deriving DecidableEq

/-- One record of the serialised output stream: a name-framing entry
(`write_name_entry`) or an event record (`write_trace_info`).  The `Bool`
paired with each frame is bookkeeping for the statements below: it marks the
frames whose module was known (`dwfl_addrmodule` non-null, directly or via
the cache), as opposed to zero-filled gap slots. -/
inductive OutRec
  | nameEntry (entryType : Nat) (name : String)
  | traceRec (info : TraceInfo) (frames : List (FunctionInfo × Bool))
deriving DecidableEq

/-- The record store's symbolisation state: the two name tables and the
ip → frame cache (`function_cache`). -/
structure ProcState where
  file_names : List String
  func_names : List String
  function_cache : List (Nat × FunctionInfo)

/-- `function_cache.find(ip)`. -/
def lookupCache (cache : List (Nat × FunctionInfo)) (ip : Nat) : Option FunctionInfo :=
  (cache.find? (fun p => p.1 == ip)).map (·.2)

/-- The body of `TraceData::process`'s per-frame loop: consult the cache; on
a miss, a null module leaves the zero slot (`continue`); otherwise intern the
function name then the file name, emitting a framing record for each fresh
one, fill the frame and cache it.  Returns the updated state, the framing
records written, the frame slot, and the module-known marker. -/
def processFrame (st : ProcState) (ip : Nat) (sym : SymResult) :
    ProcState × List OutRec × FunctionInfo × Bool :=
  match lookupCache st.function_cache ip with
  | some fr => (st, [], fr, true)
  | none =>
    match sym with
    | SymResult.noModule => (st, [], zeroFrame, false)
    | SymResult.found funcName fileName line col =>
      (⟨(set_name_index fileName st.file_names).2.2.1,
        (set_name_index funcName st.func_names).2.2.1,
        st.function_cache ++
          [(ip, ⟨(set_name_index fileName st.file_names).2.1,
                 (set_name_index funcName st.func_names).2.1, line, col⟩)]⟩,
       (if (set_name_index funcName st.func_names).2.2.2 then
          [OutRec.nameEntry FUNC_NAME_ENTRY (set_name_index funcName st.func_names).1]
        else []) ++
         (if (set_name_index fileName st.file_names).2.2.2 then
            [OutRec.nameEntry FILE_NAME_ENTRY (set_name_index fileName st.file_names).1]
          else []),
       ⟨(set_name_index fileName st.file_names).2.1,
        (set_name_index funcName st.func_names).2.1, line, col⟩, true)

/-- The frame loop of `TraceData::process` over a record's stack, each
instruction pointer paired with its symboliser outcome. -/
def processStack (st : ProcState) : List (Nat × SymResult) →
    ProcState × List OutRec × List (FunctionInfo × Bool)
  | [] => (st, [], [])
  | (ip, sym) :: rest =>
    ((processStack (processFrame st ip sym).1 rest).1,
     (processFrame st ip sym).2.1 ++ (processStack (processFrame st ip sym).1 rest).2.1,
     ((processFrame st ip sym).2.2.1, (processFrame st ip sym).2.2.2) ::
       (processStack (processFrame st ip sym).1 rest).2.2)

/-- `TraceData::process`: resolve every frame (emitting framing records as a
side effect), then serialise the event record itself (`write_trace_info`). -/
def TraceData.process (st : ProcState) (info : TraceInfo) (syms : List SymResult) :
    ProcState × List OutRec :=
  ((processStack st (info.stack.zip syms)).1,
   (processStack st (info.stack.zip syms)).2.1 ++
     [OutRec.traceRec info (processStack st (info.stack.zip syms)).2.2])

/-- The worker processing a sequence of popped records in order. -/
def processRun (st : ProcState) : List (TraceInfo × List SymResult) →
    ProcState × List OutRec
  | [] => (st, [])
  | (info, syms) :: rest =>
    ((processRun (TraceData.process st info syms).1 rest).1,
     (TraceData.process st info syms).2 ++
       (processRun (TraceData.process st info syms).1 rest).2)

/-- The record store's initial symbolisation state: empty tables, empty cache. -/
def initProcState : ProcState := ⟨[], [], []⟩

/-- The function names framed so far in a stream, in emission order. -/
def funcEntryNames (out : List OutRec) : List String :=
  out.filterMap fun r =>
    match r with
    | OutRec.nameEntry t n => if t == FUNC_NAME_ENTRY then some n else none
    | _ => none

/-- The file names framed so far in a stream, in emission order. -/
def fileEntryNames (out : List OutRec) : List String :=
  out.filterMap fun r =>
    match r with
    | OutRec.nameEntry t n => if t == FILE_NAME_ENTRY then some n else none
    | _ => none

/-- `framedFrom nFunc nFile out`: reading the stream `out` left to right when
`nFunc` function names and `nFile` file names have already been framed, every
event record's module-known frames reference indices strictly below the
running counts — i.e. a name-framing record precedes the first event that
references its index. -/
def framedFrom : Nat → Nat → List OutRec → Prop
  | _, _, [] => True
  | nFunc, nFile, OutRec.nameEntry t _ :: rest =>
    framedFrom (if t == FUNC_NAME_ENTRY then nFunc + 1 else nFunc)
      (if t == FILE_NAME_ENTRY then nFile + 1 else nFile) rest
  | nFunc, nFile, OutRec.traceRec _ frames :: rest =>
    (∀ p ∈ frames, p.2 = true → p.1.func_index < nFunc ∧ p.1.file_index < nFile) ∧
      framedFrom nFunc nFile rest

/-- The record store's symbolisation invariant: the name tables contain no
duplicates (each name was interned once) and every cached frame references
indices inside the tables. -/
def ProcInv (st : ProcState) : Prop :=
  st.func_names.Nodup ∧ st.file_names.Nodup ∧
    ∀ p ∈ st.function_cache,
      p.2.func_index < st.func_names.length ∧ p.2.file_index < st.file_names.length

/-! ## Breakpoint bookkeeping (`debugger.h`: `add_breakpoint`,
`enable_breakpoint`, `reset_breakpoint`, `on_mmap_result`)

Tracee text memory is modelled as the map `mem : Nat → Nat` from an address
to the 8-byte machine word `PTRACE_PEEKTEXT` reads there. -/

/-- The breakpoint table and the range fields of `Debugger`. -/
structure BreakpointState where
  breakpoints : List (Nat × Nat)
  breakpoint_min : Nat
  breakpoint_max : Nat
deriving DecidableEq, Repr

/-- `breakpoints[addr] = orig`: update the present entry or append a new one
(key order does not matter for the statements below). -/
def insertBp (bps : List (Nat × Nat)) (addr orig : Nat) : List (Nat × Nat) :=
  if bps.any (·.1 == addr) then
    bps.map fun p => if p.1 == addr then (addr, orig) else p
  else
    bps ++ [(addr, orig)]

/-- `enable_breakpoint`: `PTRACE_POKETEXT(addr, (orig & ~0xFF) | 0xCC)`. -/
def enable_breakpoint (mem : Nat → Nat) (addr orig : Nat) : Nat → Nat :=
  fun a => if a = addr then (orig / 256) * 256 + 0xCC else mem a

/-- `add_breakpoint`: peek the original word, store it in the table, extend
`breakpoint_min` / `breakpoint_max` under the guards written in the source
(`breakpoint_min == 0 && breakpoint_min > addr`,
`breakpoint_max == 0 && breakpoint_max < addr`), then arm the trap byte. -/
def add_breakpoint (mem : Nat → Nat) (st : BreakpointState) (addr : Nat) :
    BreakpointState × (Nat → Nat) :=
  let orig := mem addr
  let bps := insertBp st.breakpoints addr orig
  let bmin :=
    if st.breakpoint_min == 0 && decide (st.breakpoint_min > addr) then addr
    else st.breakpoint_min
  let bmax :=
    if st.breakpoint_max == 0 && decide (st.breakpoint_max < addr) then addr
    else st.breakpoint_max
  (⟨bps, bmin, bmax⟩, enable_breakpoint mem addr orig)

/-- `reset_breakpoint(tid, range_min, range_max)`: walk the breakpoint table;
for every address inside the closed range whose current low byte is no longer
`0xCC`, run `add_breakpoint` again (re-reading the word and re-arming). -/
def reset_breakpoint (st : BreakpointState) (mem : Nat → Nat)
    (range_min range_max : Nat) : BreakpointState × (Nat → Nat) :=
  st.breakpoints.foldl
    (fun acc p =>
      if p.1 < range_min || p.1 > range_max then acc
      else if (acc.2 p.1) % 256 ≠ 0xCC then add_breakpoint acc.2 acc.1 p.1
      else acc)
    (st, mem)

/-- The guard of `on_mmap_result`:
`regs.rax < breakpoint_max && regs.rax + regs.rsi > breakpoint_min`
(`rax + rsi` is 64-bit register arithmetic). -/
def on_mmap_result_triggers (st : BreakpointState) (rax rsi : Nat) : Bool :=
  decide (rax < st.breakpoint_max) && decide ((rax + rsi) % 2 ^ 64 > st.breakpoint_min)

/-- `on_mmap_result`: when the guard holds, re-arm the breakpoints inside
`[rax, rax + rsi]`; otherwise do nothing. -/
def on_mmap_result (st : BreakpointState) (mem : Nat → Nat) (rax rsi : Nat) :
    BreakpointState × (Nat → Nat) :=
  if on_mmap_result_triggers st rax rsi then
    reset_breakpoint st mem rax ((rax + rsi) % 2 ^ 64)
  else
    (st, mem)

/-! ## Entry/return pairing (`debugger.h`: `trace_breakpoint`)

`trace_breakpoint` is modelled as a transition of the per-thread
return-breakpoint stack plus the process-wide `functions` / `breakpoints`
tables, emitting the hook invocations of that stop.  The ptrace reads that
feed it — `regs.rip` and the return address `PTRACE_PEEKDATA(regs.rsp)` —
are inputs of the step. -/

/-- Presence of the two hooks of a registered `FunctionCallback`
(`invoke != nullptr`, `result != nullptr`). -/
structure FunctionCallback where
  invoke : Bool
  result : Bool
deriving DecidableEq, Repr

/-- One entry of `ThreadData::stack` (`ResultBreakpoint`). -/
structure ResultBreakpoint where
  breakpoint : Nat
  function_index : Nat
deriving DecidableEq, Repr

/-- The state `trace_breakpoint` reads and writes: the `functions` map
(address → function index), the `breakpoints` key set, and this thread's
return-breakpoint stack (list head = `std::vector::back`). -/
structure DebugState where
  functions : List (Nat × Nat)
  breakpoints : List Nat
  stack : List ResultBreakpoint
deriving DecidableEq, Repr

/-- The hook invocations observable at one breakpoint stop.  (In the full
tracer each hook pushes one correspondingly-tagged record into the trace
queue.) -/
inductive HookEvent
  | invoke (functionIndex : Nat)
  | result (functionIndex : Nat)
deriving DecidableEq, Repr

/-- `get_function(rip)`: look `rip - 1` up in `functions`; a miss yields
`{0, 0}` and the caller treats `addr == 0` as "no function here". -/
def get_function (functions : List (Nat × Nat)) (rip : Nat) : Nat × Nat :=
  match functions.find? (fun p => p.1 == rip - 1) with
  | some p => p
  | none => (0, 0)

/-- `get_function_callbacks()[i]`, with absent entries read as hook-less
(the source only stores indices produced by iterating this vector). -/
def callbackAt (cbs : List FunctionCallback) (i : Nat) : FunctionCallback :=
  cbs.getD i ⟨false, false⟩

/-- `trace_breakpoint`: (1) an address registered in `functions` is an entry
breakpoint — run the invoke hook and, when the function is return-tracked,
push `(return address, index)` onto this thread's stack and install a
breakpoint at the return address if none exists; (2) otherwise, when the
trapped address equals the top of the stack, pop it and run that function's
result hook; (3) otherwise step over a stale armed address with no hook. -/
def trace_breakpoint (cbs : List FunctionCallback) (st : DebugState)
    (rip retAddr : Nat) : DebugState × List HookEvent :=
  let fn := get_function st.functions rip
  if fn.1 ≠ 0 then
    let c := callbackAt cbs fn.2
    let ev := if c.invoke then [HookEvent.invoke fn.2] else []
    if c.result then
      ({ st with
          stack := ⟨retAddr, fn.2⟩ :: st.stack,
          breakpoints :=
            if st.breakpoints.contains retAddr then st.breakpoints
            else st.breakpoints ++ [retAddr] },
       ev)
    else
      (st, ev)
  else
    match st.stack with
    | top :: rest =>
      if rip - 1 == top.breakpoint then
        let c := callbackAt cbs top.function_index
        ({ st with stack := rest },
         if c.result then [HookEvent.result top.function_index] else [])
      else
        (st, [])
    | [] => (st, [])

/-- A sequence of breakpoint stops of one thread, folded through
`trace_breakpoint`; the events are concatenated in program order. -/
def runTraps (cbs : List FunctionCallback) (st : DebugState) :
    List (Nat × Nat) → DebugState × List HookEvent
  | [] => (st, [])
  | (rip, retAddr) :: rest =>
    ((runTraps cbs (trace_breakpoint cbs st rip retAddr).1 rest).1,
     (trace_breakpoint cbs st rip retAddr).2 ++
       (runTraps cbs (trace_breakpoint cbs st rip retAddr).1 rest).2)

/-- Number of invoke-hook invocations for function `i`. -/
def countInvoke (evs : List HookEvent) (i : Nat) : Nat :=
  (evs.filter (· == HookEvent.invoke i)).length

/-- Number of result-hook invocations for function `i`. -/
def countResult (evs : List HookEvent) (i : Nat) : Nat :=
  (evs.filter (· == HookEvent.result i)).length

/-- Number of outstanding return breakpoints of function `i` on a thread's
stack. -/
def stackCount (stk : List ResultBreakpoint) (i : Nat) : Nat :=
  (stk.filter (fun b => b.function_index == i)).length

/-- The subsequence of a thread's events that concerns function `i`. -/
def eventsFor (evs : List HookEvent) (i : Nat) : List HookEvent :=
  evs.filter fun e => e == HookEvent.invoke i || e == HookEvent.result i

/-- `expectInvoke = true`: the next event for the function must be an invoke;
afterwards a result, and so on — the claim's "alternate strictly, invoke
first". -/
def alternatesFrom (i : Nat) : Bool → List HookEvent → Bool
  | _, [] => true
  | true, e :: rest => e == HookEvent.invoke i && alternatesFrom i false rest
  | false, e :: rest => e == HookEvent.result i && alternatesFrom i true rest

/-- Strict invoke/result alternation for function `i` within one thread's
event sequence. -/
def strictlyAlternates (evs : List HookEvent) (i : Nat) : Bool :=
  alternatesFrom i true (eventsFor evs i)

/-! ## Library-name filter (`debugger.h`: `on_mmap_invoke`)

The path read back from `/proc/<pid>/fd/<r8>` is a character list. -/

/-- `so_ext = ".so"`. -/
def soExt : List Char := ['.', 's', 'o']

/-- `std::string::find(pat)`: index of the first occurrence of `pat`, `none`
for `npos`. -/
def findSub (pat : List Char) : List Char → Option Nat
  | [] => if pat.isPrefixOf ([] : List Char) then some 0 else none
  | c :: rest =>
    if pat.isPrefixOf (c :: rest) then some 0
    else (findSub pat rest).map (· + 1)

/-- The filter of `on_mmap_invoke`: find the first `".so"` in the whole path;
the path is inserted into `loading_libraries` (and the pending flag raised)
iff that occurrence is at the very end of the path or is immediately followed
by `'.'`. -/
def on_mmap_invoke_adds (file_path : List Char) : Bool :=
  match findSub soExt file_path with
  | none => false
  | some so_pos =>
    let so_tail := so_pos + soExt.length
    so_tail == file_path.length || file_path.getD so_tail ' ' == '.'

/-- The basename of a path: the characters after the last `'/'`. -/
def basenameOf (p : List Char) : List Char :=
  (p.reverse.takeWhile (· ≠ '/')).reverse

/-- Whether a name contains `".so"` as a terminal suffix or immediately
followed by `'.'` (a versioned suffix), at any position. -/
def hasVersionedSo (b : List Char) : Bool :=
  (List.range b.length).any fun i =>
    soExt.isPrefixOf (b.drop i) &&
      (i + soExt.length == b.length || b.getD (i + soExt.length) ' ' == '.')

/-- Modelled from the spec (§4.7.4): the claim's filter — the basename of the
path contains `".so"` either as a terminal suffix or immediately followed by
`'.'`. -/
def spec_library_filter (p : List Char) : Bool :=
  hasVersionedSo (basenameOf p)

/-! ## ELF symbol enumeration (`target_loader.cpp`: `parse_elf_file`)

The mapped file is a byte buffer `d : List Nat` (the C `length` is
`d.length`).  Reads beyond the buffer — which the C code performs unchecked
in a few places — return 0.  The callback is a parameter; the returned list
records every `callback(sym_name, value)` invocation in order. -/

namespace Elf

/-- One byte of the buffer; out-of-range reads yield 0. -/
def byteAt (d : List Nat) (i : Nat) : Nat := (d.getD i 0) % 256

/-- An `n`-byte little-endian field at offset `off`. -/
def readLE (d : List Nat) (off n : Nat) : Nat :=
  (List.range n).foldr (fun i acc => acc * 256 + byteAt d (off + i)) 0

/-- `e_shoff` (u64 at offset 40 of `Elf64_Ehdr`). -/
def e_shoff (d : List Nat) : Nat := readLE d 40 8

/-- `e_shnum` (u16 at offset 60). -/
def e_shnum (d : List Nat) : Nat := readLE d 60 2

/-- `e_shstrndx` (u16 at offset 62). -/
def e_shstrndx (d : List Nat) : Nat := readLE d 62 2

/-- `stables[i].sh_name` (u32 at offset 0 of the i-th `Elf64_Shdr`). -/
def sh_name (d : List Nat) (stables i : Nat) : Nat := readLE d (stables + 64 * i) 4

/-- `stables[i].sh_offset` (u64 at offset 24). -/
def sh_offset (d : List Nat) (stables i : Nat) : Nat := readLE d (stables + 64 * i + 24) 8

/-- `stables[i].sh_size` (u64 at offset 32). -/
def sh_size (d : List Nat) (stables i : Nat) : Nat := readLE d (stables + 64 * i + 32) 8

/-- A C string read at offset `off`: bytes up to the first 0.  Beyond the
buffer every byte reads 0, so `d.length + 1` steps of fuel always suffice. -/
def readCStrAux (d : List Nat) (off : Nat) : Nat → List Nat
  | 0 => []
  | fuel + 1 =>
    if byteAt d off == 0 then [] else byteAt d off :: readCStrAux d (off + 1) fuel

/-- A C string read at offset `off`. -/
def readCStr (d : List Nat) (off : Nat) : List Nat := readCStrAux d off (d.length + 1)

/-- The bytes of `".dynsym"`. -/
def dynsymName : List Nat := [46, 100, 121, 110, 115, 121, 109]

/-- The bytes of `".dynstr"`. -/
def dynstrName : List Nat := [46, 100, 121, 110, 115, 116, 114]

/-- The bytes of `".rela.plt"`. -/
def relapltName : List Nat := [46, 114, 101, 108, 97, 46, 112, 108, 116]

/-- The locals of `parse_elf_file`'s section scan: the `.dynsym`, `.dynstr`
and `.rela.plt` positions found so far and the countdown of sections still
wanted. -/
structure ScanState where
  dynsymOff : Nat
  dynsymCount : Nat
  dynstrOff : Nat
  dynstrSize : Nat
  pltOff : Nat
  pltCount : Nat
  count : Nat
deriving DecidableEq, Repr

/-- The section-scan loop
`for (i = 0; i < table_max && count > 0; i++)`: each examined section is
bounds-checked (`length < sh_offset + sh_size` fails the parse), then its
name is compared against the wanted table names.  `remaining` is
`table_max - i`.  `none` models `return false`. -/
def scanSections (d : List Nat) (stables shstrtab : Nat) (fromRel : Bool) :
    Nat → Nat → ScanState → Option ScanState
  | _, 0, s => some s
  | i, remaining + 1, s =>
    if s.count == 0 then some s
    else if d.length < sh_offset d stables i + sh_size d stables i then none
    else
      let name := readCStr d (shstrtab + sh_name d stables i)
      if name == dynsymName then
        scanSections d stables shstrtab fromRel (i + 1) remaining
          { s with
              dynsymOff := sh_offset d stables i,
              dynsymCount := sh_size d stables i / 24,
              count := s.count - 1 }
      else if name == dynstrName then
        scanSections d stables shstrtab fromRel (i + 1) remaining
          { s with
              dynstrOff := sh_offset d stables i,
              dynstrSize := sh_size d stables i,
              count := s.count - 1 }
      else if fromRel && name == relapltName then
        scanSections d stables shstrtab fromRel (i + 1) remaining
          { s with
              pltOff := sh_offset d stables i,
              pltCount := sh_size d stables i / 24,
              count := s.count - 1 }
      else
        scanSections d stables shstrtab fromRel (i + 1) remaining s

/-- The `.dynsym` walk (`from_relocation == false`): skip non-`STT_FUNC`
symbols; fail the parse when `dynstr_size <= st_name`; otherwise invoke the
callback with the name string and `st_value`, stopping early when it returns
`true`. -/
def walkDynsym (d : List Nat) (cb : List Nat → Nat → Bool) (s : ScanState) :
    Nat → Nat → Bool × List (List Nat × Nat)
  | _, 0 => (true, [])
  | i, remaining + 1 =>
    let symOff := s.dynsymOff + 24 * i
    if byteAt d (symOff + 4) % 16 ≠ 2 then
      walkDynsym d cb s (i + 1) remaining
    else
      let stName := readLE d symOff 4
      if s.dynstrSize ≤ stName then (false, [])
      else
        let symName := readCStr d (s.dynstrOff + stName)
        let stValue := readLE d (symOff + 8) 8
        if cb symName stValue then (true, [(symName, stValue)])
        else
          ((walkDynsym d cb s (i + 1) remaining).1,
           (symName, stValue) :: (walkDynsym d cb s (i + 1) remaining).2)

/-- The `.rela.plt` walk (`from_relocation == true`): skip relocations whose
`ELF64_R_SYM` is 0; fail when `dynstr_size <= dynsym[sym].st_name`; otherwise
invoke the callback with the name and `r_offset`. -/
def walkRela (d : List Nat) (cb : List Nat → Nat → Bool) (s : ScanState) :
    Nat → Nat → Bool × List (List Nat × Nat)
  | _, 0 => (true, [])
  | i, remaining + 1 =>
    let relaOff := s.pltOff + 24 * i
    let sym := readLE d (relaOff + 8) 8 / 2 ^ 32
    if sym == 0 then
      walkRela d cb s (i + 1) remaining
    else
      let stName := readLE d (s.dynsymOff + 24 * sym) 4
      if s.dynstrSize ≤ stName then (false, [])
      else
        let symName := readCStr d (s.dynstrOff + stName)
        let rOffset := readLE d relaOff 8
        if cb symName rOffset then (true, [(symName, rOffset)])
        else
          ((walkRela d cb s (i + 1) remaining).1,
           (symName, rOffset) :: (walkRela d cb s (i + 1) remaining).2)

/-- The initial scan state: null pointers, zero counts, `count` wanted
sections. -/
def initScan (fromRel : Bool) : ScanState :=
  ⟨0, 0, 0, 0, 0, 0, if fromRel then 3 else 2⟩

/-- The header checks and the section scan of `parse_elf_file`, shared by
both walks. -/
def elfScan (d : List Nat) (fromRel : Bool) : Option ScanState :=
  if d.length ≤ 64 then none
  else if d.length ≤ e_shoff d + 64 then none
  else
    scanSections d (e_shoff d) (sh_offset d (e_shoff d) (e_shstrndx d)) fromRel
      0 (e_shnum d) (initScan fromRel)

/-- `parse_elf_file(data, length, callback, from_relocation)`: the returned
flag is the C return value, the list records the callback invocations. -/
def parse_elf_file (d : List Nat) (cb : List Nat → Nat → Bool) (fromRel : Bool) :
    Bool × List (List Nat × Nat) :=
  match elfScan d fromRel with
  | none => (false, [])
  | some s =>
    if fromRel then walkRela d cb s 0 s.pltCount
    else walkDynsym d cb s 0 s.dynsymCount

/-- The `"\x7fELF"` magic test that `setup_breakpoint` (the caller) performs
on the file's first four bytes; `parse_elf_file` itself never inspects them. -/
def hasElfMagic (d : List Nat) : Bool :=
  byteAt d 0 == 0x7f && byteAt d 1 == 69 && byteAt d 2 == 76 && byteAt d 3 == 70

/-- A 16-bit little-endian field as bytes. -/
def le16 (v : Nat) : List Nat := [v % 256, v / 256 % 256]

/-- A 32-bit little-endian field as bytes. -/
def le32 (v : Nat) : List Nat := le16 v ++ le16 (v / 65536)

/-- A 64-bit little-endian field as bytes. -/
def le64 (v : Nat) : List Nat := le32 v ++ le32 (v / 2 ^ 32)

/-- One `Elf64_Shdr` with the fields `parse_elf_file` reads. -/
def shdrBytes (name off size : Nat) : List Nat :=
  le32 name ++ le32 0 ++ le64 0 ++ le64 0 ++ le64 off ++ le64 size ++
    le32 0 ++ le32 0 ++ le64 0 ++ le64 0

/-- A minimal well-formed buffer for `parse_elf_file`: a section table at
offset 64 holding `.dynsym` (one `STT_FUNC` symbol named `"f"`, value
`0x1234`), `.dynstr` and the section-name string table. -/
def miniElf : List Nat :=
  List.replicate 40 0 ++ le64 64 ++ le32 0 ++ le16 0 ++ le16 0 ++ le16 0 ++
      le16 0 ++ le16 3 ++ le16 2 ++
    shdrBytes 0 256 24 ++ shdrBytes 8 280 3 ++ shdrBytes 16 283 26 ++
    (le32 1 ++ [2, 0] ++ le16 0 ++ le64 0x1234 ++ le64 0) ++
    [0, 102, 0] ++
    ([46, 100, 121, 110, 115, 121, 109, 0] ++ [46, 100, 121, 110, 115, 116, 114, 0] ++
      [46, 115, 104, 115, 116, 114, 116, 97, 98, 0])

end Elf

/-! ## Theorems -/

/-! ### Unwinder lemmas -/

theorem unwindLoop_eq_append (md : Int) (rest : List Nat) :
    ∀ acc, ∃ t, unwindLoop md rest acc = acc ++ t := by
  induction rest with
  | nil => intro acc; exact ⟨[], (List.append_nil acc).symm⟩
  | cons ip rest ih =>
    intro acc
    unfold unwindLoop
    split
    · obtain ⟨t, ht⟩ := ih (acc ++ [ip])
      exact ⟨ip :: t, by simp [ht]⟩
    · exact ⟨[], (List.append_nil acc).symm⟩

theorem unwindLoop_length_le_max (md : Int) (rest : List Nat) :
    ∀ acc : List Nat, acc.length ≤ STACK_MAX →
      (unwindLoop md rest acc).length ≤ STACK_MAX := by
  induction rest with
  | nil => intro acc h; exact h
  | cons ip rest ih =>
    intro acc h
    unfold unwindLoop
    split
    · rename_i hcond
      refine ih (acc ++ [ip]) ?_
      have : acc.length < STACK_MAX := by
        have := (Bool.and_eq_true _ _).mp hcond
        exact of_decide_eq_true this.1
      simpa using this
    · exact h

theorem unwindLoop_length_le_cap (md : Int) (rest : List Nat) :
    ∀ acc : List Nat, (acc.length : Int) ≤ md →
      ((unwindLoop md rest acc).length : Int) ≤ md := by
  induction rest with
  | nil => intro acc h; exact h
  | cons ip rest ih =>
    intro acc h
    unfold unwindLoop
    split
    · rename_i hcond
      refine ih (acc ++ [ip]) ?_
      have : (acc.length : Int) < md := by
        have := (Bool.and_eq_true _ _).mp hcond
        exact of_decide_eq_true this.2
      have hlen : ((acc ++ [ip]).length : Int) = (acc.length : Int) + 1 := by
        simp
      omega
    · exact h

theorem unwindLoop_nonpos (md : Int) (hmd : md ≤ 0) (rest : List Nat)
    (acc : List Nat) (hacc : 1 ≤ acc.length) :
    unwindLoop md rest acc = acc := by
  cases rest with
  | nil => rfl
  | cons ip rest =>
    unfold unwindLoop
    rw [if_neg]
    intro hcond
    have := (Bool.and_eq_true _ _).mp hcond
    have h2 : (acc.length : Int) < md := of_decide_eq_true this.2
    omega

/-! ### C6 -/

/-- C6, counterexample: with the caller-supplied depth cap 0 the unwinder
still records one frame (`get_stack_trace` is a do-while loop: the first
frame is pushed before the cap is consulted), so the produced list's length
exceeds the cap. -/
theorem c6_depth_cap_counterexample :
    (get_stack_trace 7 [8] 0).length = 1 ∧ ¬((get_stack_trace 7 [8] 0).length ≤ 0) := by
  decide

/-- C6 (amended): the unwinder's output is ordered from the innermost frame
(`RIP` first), never exceeds `STACK_MAX = 100` frames, and never exceeds the
caller-supplied depth cap for caps ≥ 1; a cap ≤ 0 (0 included) yields exactly
the single innermost frame. -/
theorem c6_stack_depth_bounds (first : Nat) (steps : List Nat) (maxDepth : Int) :
    (get_stack_trace first steps maxDepth).length ≤ STACK_MAX ∧
    1 ≤ (get_stack_trace first steps maxDepth).length ∧
    (get_stack_trace first steps maxDepth).head? = some first ∧
    (1 ≤ maxDepth → ((get_stack_trace first steps maxDepth).length : Int) ≤ maxDepth) ∧
    (maxDepth ≤ 0 → get_stack_trace first steps maxDepth = [first]) := by
  obtain ⟨t, ht⟩ := unwindLoop_eq_append maxDepth steps [first]
  refine ⟨?_, ?_, ?_, ?_, ?_⟩
  · exact unwindLoop_length_le_max maxDepth steps [first] (by simp [STACK_MAX])
  · rw [get_stack_trace, ht]; simp
  · rw [get_stack_trace, ht]; rfl
  · intro h
    exact unwindLoop_length_le_cap maxDepth steps [first] (by simpa using h)
  · intro h
    exact unwindLoop_nonpos maxDepth h steps [first] (by simp)

/-- C6 witness: the amended bounds at a concrete unwind. -/
theorem c6_stack_depth_bounds_witness :
    ((get_stack_trace 7 [8, 9, 10] 2).length : Int) ≤ 2 ∧
      get_stack_trace 7 [8, 9, 10] (-1) = [7] :=
  ⟨(c6_stack_depth_bounds 7 [8, 9, 10] 2).2.2.2.1 (by decide),
   (c6_stack_depth_bounds 7 [8, 9, 10] (-1)).2.2.2.2 (by decide)⟩

/-! ### C9 -/

/-- C9: the event tag is the octet `(kind << 1) | phase`; `GetOperation`
recovers the kind, `IsInvoke` holds exactly for phase 0, and the
`UNKNOWN`-kind tags of phases 0 and 1 are the file-name and function-name
framing markers. -/
theorem c9_tag_encoding :
    (∀ k < opTypeCount, ∀ p < 2,
      (if p = 0 then opInvokeTag k else opResultTag k) = k * 2 + p ∧
      GetOperation (k * 2 + p) = k ∧
      (IsInvoke (k * 2 + p) = true ↔ p = 0)) ∧
    FILE_NAME_ENTRY = opInvokeTag 0 ∧ FUNC_NAME_ENTRY = opResultTag 0 ∧
    FILE_NAME_ENTRY = 0 ∧ FUNC_NAME_ENTRY = 1 := by
  decide

/-- C9 witness: the round-trip at kind 3 (`MMAP`), phase 1. -/
theorem c9_tag_encoding_witness :
    GetOperation (3 * 2 + 1) = 3 ∧ (IsInvoke (3 * 2 + 1) = true ↔ 1 = 0) :=
  (c9_tag_encoding.1 3 (by decide) 1 (by decide)).2

/-! ### C7 -/

/-- C7: every record `TraceData::add` pushes satisfies: a result-phase
(odd) tag carries stack depth 0; a stack is collected only for invoke-phase
records with stack collection enabled, and then the pushed record carries
exactly the collected stack. -/
theorem c7_phase_stack (cfg : TraceConfig) (tag tid a1 a2 : Nat) (ts : Int)
    (unwind : Option (Nat × List Nat)) (pushOk : Bool) (info : TraceInfo)
    (h : TraceData.add cfg tag tid a1 a2 ts unwind pushOk = some info) :
    info.tag = tag ∧
    (IsInvoke tag = false → info.stack = []) ∧
    (cfg.isGetStackTrace = false → info.stack = []) ∧
    (IsInvoke tag = true → cfg.isGetStackTrace = true →
      ∀ first steps, unwind = some (first, steps) →
        info.stack = get_stack_trace first steps cfg.maxStackTraceDepth) := by
  unfold TraceData.add at h
  dsimp only at h
  split at h
  · exact absurd h (by simp)
  · rename_i val heq
    split at h
    · cases h
      split at heq
      · rename_i hc
        cases unwind with
        | none => exact absurd heq (by simp)
        | some fs =>
          obtain ⟨first, steps⟩ := fs
          rw [Option.some.injEq] at heq
          subst heq
          refine ⟨rfl, ?_, ?_, ?_⟩
          · intro hInv
            rw [Bool.and_eq_true, hInv] at hc
            exact absurd hc.1 (by simp)
          · intro hGet
            rw [Bool.and_eq_true, hGet] at hc
            exact absurd hc.2 (by simp)
          · intro _ _ f s hfs
            injection hfs with hfs
            injection hfs with h1 h2
            subst h1; subst h2; rfl
      · rename_i hc
        rw [Option.some.injEq] at heq
        subst heq
        refine ⟨rfl, fun _ => rfl, fun _ => rfl, ?_⟩
        intro hInv hGet
        exact absurd (by rw [hInv, hGet]; rfl) hc
    · exact absurd h (by simp)

/-- C7 witness: a malloc-invoke record with stack collection enabled carries
the collected stack. -/
theorem c7_phase_stack_witness :
    TraceData.add ⟨true, 5⟩ 22 9 40 0 0 (some (7, [8])) true =
      some ⟨22, 9, 40, 0, 0, [7, 8]⟩ ∧
    (⟨22, 9, 40, 0, 0, [7, 8]⟩ : TraceInfo).stack = get_stack_trace 7 [8] 5 := by
  refine ⟨by decide, ?_⟩
  exact (c7_phase_stack ⟨true, 5⟩ 22 9 40 0 0 (some (7, [8])) true _ (by decide)).2.2.2
    (by decide) rfl 7 [8] rfl

/-! ### C8 -/

/-- C8: the worker loop's guard fails exactly when the stop flag is set, the
queue is empty and no symboliser refresh is pending; while not stopped, an
empty queue with no pending refresh makes the iteration a bare 25 ms sleep
leaving the state unchanged; and a pending refresh is the first thing an
iteration services, before any record is popped. -/
theorem c8_worker_exit (s : WorkerState) (reportOk : Bool) :
    (workerLoopGuard s = false ↔
      s.stopped = true ∧ s.queue = [] ∧ s.needUpdateDwfl = false) ∧
    (s.stopped = false → s.queue = [] → s.needUpdateDwfl = false →
      workerIteration s reportOk = ([WorkerAct.sleep25ms], s)) ∧
    (s.needUpdateDwfl = true →
      (workerIteration s reportOk).1.head? = some WorkerAct.updateDwfl) := by
  obtain ⟨stopped, queue, need⟩ := s
  refine ⟨?_, ?_, ?_⟩
  · simp only [workerLoopGuard]
    cases stopped <;> cases need <;> cases queue <;> simp
  · intro h1 h2 h3
    subst h1; subst h2; subst h3
    rfl
  · intro h
    subst h
    simp only [workerIteration]
    cases hq : (queue.isEmpty : Bool) <;> simp [hq]

/-- C8 witness: the three clauses at concrete states. -/
theorem c8_worker_exit_witness :
    workerIteration ⟨false, [], false⟩ true = ([WorkerAct.sleep25ms], ⟨false, [], false⟩) ∧
    (workerIteration ⟨false, [⟨22, 9, 40, 0, 0, []⟩], true⟩ true).1.head? =
      some WorkerAct.updateDwfl :=
  ⟨(c8_worker_exit ⟨false, [], false⟩ true).2.1 rfl rfl rfl,
   (c8_worker_exit ⟨false, [⟨22, 9, 40, 0, 0, []⟩], true⟩ true).2.2 rfl⟩

/-! ### C2 -/

/-- C2 evaluated at the failing input: after installing breakpoints at
0x1000 and then 0x2000 (original words 0x11 and 0x22), the source's guards
`breakpoint_min == 0 && breakpoint_min > addr` (unsatisfiable) and
`breakpoint_max == 0 && breakpoint_max < addr` (true only once) leave
`breakpoint_max = 0x1000`, so the installed address 0x2000 lies outside
`[breakpoint_min, breakpoint_max]`; an `mmap` that returns the range
`[0x1800, 0x2800)` — which contains the breakpoint 0x2000 whose trap byte the
remap reset to 0x22 — does not fire `on_mmap_result`'s guard, and the
breakpoint stays disarmed, although `reset_breakpoint` itself would have
re-armed it had the guard fired. -/
theorem c2_breakpoint_range_failing_input :
    (add_breakpoint
        ((add_breakpoint
          (fun a => if a = 0x1000 then 0x11 else if a = 0x2000 then 0x22 else 0)
          ⟨[], 0, 0⟩ 0x1000).2)
        ((add_breakpoint
          (fun a => if a = 0x1000 then 0x11 else if a = 0x2000 then 0x22 else 0)
          ⟨[], 0, 0⟩ 0x1000).1)
        0x2000).1.breakpoints.map Prod.fst = [0x1000, 0x2000] ∧
    (add_breakpoint
        ((add_breakpoint
          (fun a => if a = 0x1000 then 0x11 else if a = 0x2000 then 0x22 else 0)
          ⟨[], 0, 0⟩ 0x1000).2)
        ((add_breakpoint
          (fun a => if a = 0x1000 then 0x11 else if a = 0x2000 then 0x22 else 0)
          ⟨[], 0, 0⟩ 0x1000).1)
        0x2000).1.breakpoint_min = 0 ∧
    (add_breakpoint
        ((add_breakpoint
          (fun a => if a = 0x1000 then 0x11 else if a = 0x2000 then 0x22 else 0)
          ⟨[], 0, 0⟩ 0x1000).2)
        ((add_breakpoint
          (fun a => if a = 0x1000 then 0x11 else if a = 0x2000 then 0x22 else 0)
          ⟨[], 0, 0⟩ 0x1000).1)
        0x2000).1.breakpoint_max = 0x1000 ∧
    ¬(0x2000 ≤ (add_breakpoint
        ((add_breakpoint
          (fun a => if a = 0x1000 then 0x11 else if a = 0x2000 then 0x22 else 0)
          ⟨[], 0, 0⟩ 0x1000).2)
        ((add_breakpoint
          (fun a => if a = 0x1000 then 0x11 else if a = 0x2000 then 0x22 else 0)
          ⟨[], 0, 0⟩ 0x1000).1)
        0x2000).1.breakpoint_max) ∧
    (0x1800 ≤ 0x2000 ∧ 0x2000 < 0x1800 + 0x1000) ∧
    on_mmap_result_triggers
      (add_breakpoint
        ((add_breakpoint
          (fun a => if a = 0x1000 then 0x11 else if a = 0x2000 then 0x22 else 0)
          ⟨[], 0, 0⟩ 0x1000).2)
        ((add_breakpoint
          (fun a => if a = 0x1000 then 0x11 else if a = 0x2000 then 0x22 else 0)
          ⟨[], 0, 0⟩ 0x1000).1)
        0x2000).1
      0x1800 0x1000 = false ∧
    (on_mmap_result
      (add_breakpoint
        ((add_breakpoint
          (fun a => if a = 0x1000 then 0x11 else if a = 0x2000 then 0x22 else 0)
          ⟨[], 0, 0⟩ 0x1000).2)
        ((add_breakpoint
          (fun a => if a = 0x1000 then 0x11 else if a = 0x2000 then 0x22 else 0)
          ⟨[], 0, 0⟩ 0x1000).1)
        0x2000).1
      (fun a => if a = 0x2000 then 0x22 else
        ((add_breakpoint
          ((add_breakpoint
            (fun b => if b = 0x1000 then 0x11 else if b = 0x2000 then 0x22 else 0)
            ⟨[], 0, 0⟩ 0x1000).2)
          ((add_breakpoint
            (fun b => if b = 0x1000 then 0x11 else if b = 0x2000 then 0x22 else 0)
            ⟨[], 0, 0⟩ 0x1000).1)
          0x2000).2 a))
      0x1800 0x1000).2 0x2000 % 256 = 0x22 ∧
    (reset_breakpoint
      (add_breakpoint
        ((add_breakpoint
          (fun a => if a = 0x1000 then 0x11 else if a = 0x2000 then 0x22 else 0)
          ⟨[], 0, 0⟩ 0x1000).2)
        ((add_breakpoint
          (fun a => if a = 0x1000 then 0x11 else if a = 0x2000 then 0x22 else 0)
          ⟨[], 0, 0⟩ 0x1000).1)
        0x2000).1
      (fun a => if a = 0x2000 then 0x22 else
        ((add_breakpoint
          ((add_breakpoint
            (fun b => if b = 0x1000 then 0x11 else if b = 0x2000 then 0x22 else 0)
            ⟨[], 0, 0⟩ 0x1000).2)
          ((add_breakpoint
            (fun b => if b = 0x1000 then 0x11 else if b = 0x2000 then 0x22 else 0)
            ⟨[], 0, 0⟩ 0x1000).1)
          0x2000).2 a))
      0x1800 (0x1800 + 0x1000)).2 0x2000 % 256 = 0xCC := by
  refine ⟨by decide, by decide, by decide, by decide, by decide, by decide, ?_, ?_⟩ <;> decide

/-! ### Event-counting lemmas -/

theorem countInvoke_append (a b : List HookEvent) (i : Nat) :
    countInvoke (a ++ b) i = countInvoke a i + countInvoke b i := by
  simp [countInvoke, List.filter_append]

theorem countResult_append (a b : List HookEvent) (i : Nat) :
    countResult (a ++ b) i = countResult a i + countResult b i := by
  simp [countResult, List.filter_append]

theorem countInvoke_single_invoke (j i : Nat) :
    countInvoke [HookEvent.invoke j] i = if j = i then 1 else 0 := by
  by_cases h : j = i <;> simp [countInvoke, h]

theorem countInvoke_single_result (j i : Nat) :
    countInvoke [HookEvent.result j] i = 0 := by
  simp [countInvoke]

theorem countResult_single_invoke (j i : Nat) :
    countResult [HookEvent.invoke j] i = 0 := by
  simp [countResult]

theorem countResult_single_result (j i : Nat) :
    countResult [HookEvent.result j] i = if j = i then 1 else 0 := by
  by_cases h : j = i <;> simp [countResult, h]

theorem stackCount_cons (b : ResultBreakpoint) (stk : List ResultBreakpoint) (i : Nat) :
    stackCount (b :: stk) i = (if b.function_index = i then 1 else 0) + stackCount stk i := by
  by_cases h : b.function_index = i <;> simp [stackCount, List.filter_cons, h, Nat.add_comm]

/-- One `trace_breakpoint` stop preserves, for every function with both
hooks, the balance between invoke events, result events and outstanding
return breakpoints. -/
theorem trace_breakpoint_balance (cbs : List FunctionCallback) (st : DebugState)
    (rip retAddr i : Nat)
    (hinv : (callbackAt cbs i).invoke = true) (hres : (callbackAt cbs i).result = true) :
    countInvoke (trace_breakpoint cbs st rip retAddr).2 i + stackCount st.stack i =
      countResult (trace_breakpoint cbs st rip retAddr).2 i +
        stackCount (trace_breakpoint cbs st rip retAddr).1.stack i := by
  obtain ⟨fns, bps, stk⟩ := st
  unfold trace_breakpoint
  dsimp only
  split
  · -- entry breakpoint
    rename_i hfn
    by_cases hi : (get_function fns rip).2 = i
    · rw [hi, hres]
      simp only [hinv, if_true]
      rw [countInvoke_single_invoke, countResult_single_invoke]
      simp [stackCount_cons, hi]
    · by_cases hcres : (callbackAt cbs (get_function fns rip).2).result = true
      · rw [hcres]
        simp only [if_true]
        by_cases hcinv : (callbackAt cbs (get_function fns rip).2).invoke = true
        · rw [hcinv]
          simp only [if_true]
          rw [countInvoke_single_invoke, countResult_single_invoke]
          simp [stackCount_cons, hi]
        · rw [Bool.not_eq_true] at hcinv
          rw [hcinv]
          simp [countInvoke, countResult, stackCount_cons, hi]
      · rw [Bool.not_eq_true] at hcres
        rw [hcres]
        rw [if_neg (by simp)]
        by_cases hcinv : (callbackAt cbs (get_function fns rip).2).invoke = true
        · rw [hcinv]
          simp only [if_true]
          rw [countInvoke_single_invoke, countResult_single_invoke]
          simp [hi]
        · rw [Bool.not_eq_true] at hcinv
          rw [hcinv]
          simp [countInvoke, countResult]
  · -- not an entry breakpoint
    rename_i hfn
    cases stk with
    | nil => rfl
    | cons top rest =>
      dsimp only
      by_cases htop : (rip - 1 == top.breakpoint) = true
      · rw [htop]
        simp only [if_true]
        by_cases hi : top.function_index = i
        · rw [hi, hres]
          simp only [if_true]
          rw [countInvoke_single_result, countResult_single_result]
          simp [stackCount_cons, hi]
        · by_cases hcres : (callbackAt cbs top.function_index).result = true
          · rw [hcres]
            simp only [if_true]
            rw [countInvoke_single_result, countResult_single_result]
            simp [stackCount_cons, hi]
          · rw [Bool.not_eq_true] at hcres
            rw [hcres]
            simp [countInvoke, countResult, stackCount_cons, hi]
      · rw [Bool.not_eq_true] at htop
        rw [htop]
        simp [countInvoke, countResult]

/-- The balance of `trace_breakpoint_balance`, folded over a whole run. -/
theorem runTraps_balance (cbs : List FunctionCallback) (traps : List (Nat × Nat)) :
    ∀ (st : DebugState) (i : Nat),
      (callbackAt cbs i).invoke = true → (callbackAt cbs i).result = true →
      countInvoke (runTraps cbs st traps).2 i + stackCount st.stack i =
        countResult (runTraps cbs st traps).2 i +
          stackCount (runTraps cbs st traps).1.stack i := by
  induction traps with
  | nil => intro st i _ _; rfl
  | cons t rest ih =>
    intro st i hinv hres
    obtain ⟨rip, ret⟩ := t
    have h1 := trace_breakpoint_balance cbs st rip ret i hinv hres
    have h2 := ih (trace_breakpoint cbs st rip ret).1 i hinv hres
    simp only [runTraps]
    rw [countInvoke_append, countResult_append]
    omega

/-- A result event is emitted only by popping the matching top of the
thread's return-breakpoint stack. -/
theorem trace_breakpoint_result_pop (cbs : List FunctionCallback) (st : DebugState)
    (rip retAddr i : Nat)
    (h : HookEvent.result i ∈ (trace_breakpoint cbs st rip retAddr).2) :
    ∃ rest, st.stack = ⟨rip - 1, i⟩ :: rest ∧
      (trace_breakpoint cbs st rip retAddr).1.stack = rest := by
  obtain ⟨fns, bps, stk⟩ := st
  unfold trace_breakpoint at h ⊢
  dsimp only at h ⊢
  split at h
  · -- entry branch emits only invoke events
    rename_i hfn
    by_cases hcres : (callbackAt cbs (get_function fns rip).2).result = true
    · rw [hcres] at h
      simp only [if_true] at h
      split at h <;> simp at h
    · rw [Bool.not_eq_true] at hcres
      rw [hcres] at h
      rw [if_neg (by simp)] at h
      split at h <;> simp at h
  · rename_i hfn
    cases stk with
    | nil => exact absurd h (List.not_mem_nil _)
    | cons top rest =>
      dsimp only at h ⊢
      by_cases htop : (rip - 1 == top.breakpoint) = true
      · rw [htop] at h
        simp only [if_true] at h
        have hi : top.function_index = i := by
          split at h <;> simp at h
          exact h.symm
        have hb : rip - 1 = top.breakpoint := by simpa using htop
        refine ⟨rest, ?_, ?_⟩
        · have : top = (⟨rip - 1, i⟩ : ResultBreakpoint) := by
            cases top
            simp only at hi hb
            rw [hi, hb]
          rw [this]
        · rw [if_neg ?_, htop]
          · simp
          · exact hfn
      · rw [Bool.not_eq_true] at htop
        rw [htop] at h
        simp at h

/-! ### C1 -/

/-- C1, counterexample to strict alternation: one return-tracked function
(index 0, entry address 0x64) called nested within itself — the second entry
trap arrives while the first return breakpoint is still outstanding — gives
the same thread the event order invoke, invoke, result, result over a
completed run (return-breakpoint stack empty at both ends), which does not
alternate strictly, although the invoke and result counts do match. -/
theorem c1_alternation_counterexample :
    (runTraps [⟨true, true⟩] ⟨[(100, 0)], [100], []⟩
        [(101, 500), (101, 600), (601, 0), (501, 0)]).1.stack = [] ∧
    (runTraps [⟨true, true⟩] ⟨[(100, 0)], [100], []⟩
        [(101, 500), (101, 600), (601, 0), (501, 0)]).2 =
      [HookEvent.invoke 0, HookEvent.invoke 0, HookEvent.result 0, HookEvent.result 0] ∧
    strictlyAlternates
      (runTraps [⟨true, true⟩] ⟨[(100, 0)], [100], []⟩
        [(101, 500), (101, 600), (601, 0), (501, 0)]).2 0 = false ∧
    countInvoke
      (runTraps [⟨true, true⟩] ⟨[(100, 0)], [100], []⟩
        [(101, 500), (101, 600), (601, 0), (501, 0)]).2 0 =
      countResult
        (runTraps [⟨true, true⟩] ⟨[(100, 0)], [100], []⟩
          [(101, 500), (101, 600), (601, 0), (501, 0)]).2 0 := by
  decide

/-- C1 (amended): over every completed run (the thread's return-breakpoint
stack empty at start and end), each function registered with both hooks has
equally many invoke-hook and result-hook invocations; and every result-hook
invocation happens exactly when the trapped address (`rip - 1`) equals the
top entry of the thread's return-breakpoint stack, which it pops — so the
records are LIFO-paired (well-nested), and alternate strictly only when the
function's calls do not nest. -/
theorem c1_pairing_lifo :
    (∀ (cbs : List FunctionCallback) (functions : List (Nat × Nat)) (bps : List Nat)
        (traps : List (Nat × Nat)) (i : Nat),
      (callbackAt cbs i).invoke = true → (callbackAt cbs i).result = true →
      (runTraps cbs ⟨functions, bps, []⟩ traps).1.stack = [] →
      countInvoke (runTraps cbs ⟨functions, bps, []⟩ traps).2 i =
        countResult (runTraps cbs ⟨functions, bps, []⟩ traps).2 i) ∧
    (∀ (cbs : List FunctionCallback) (st : DebugState) (rip retAddr i : Nat),
      HookEvent.result i ∈ (trace_breakpoint cbs st rip retAddr).2 →
      ∃ rest, st.stack = ⟨rip - 1, i⟩ :: rest ∧
        (trace_breakpoint cbs st rip retAddr).1.stack = rest) := by
  constructor
  · intro cbs functions bps traps i hinv hres hdone
    have h := runTraps_balance cbs traps ⟨functions, bps, []⟩ i hinv hres
    rw [hdone] at h
    simpa [stackCount] using h
  · exact trace_breakpoint_result_pop

/-- C1 witness: the amended pairing at the nested concrete run, and the
pop discipline at a concrete stop. -/
theorem c1_pairing_lifo_witness :
    countInvoke
      (runTraps [⟨true, true⟩] ⟨[(100, 0)], [], []⟩ [(101, 500), (501, 0)]).2 0 =
      countResult
        (runTraps [⟨true, true⟩] ⟨[(100, 0)], [], []⟩ [(101, 500), (501, 0)]).2 0 ∧
    ∃ rest, ([⟨600, 0⟩] : List ResultBreakpoint) = ⟨601 - 1, 0⟩ :: rest ∧
      (trace_breakpoint [⟨true, true⟩] ⟨[(100, 0)], [600], [⟨600, 0⟩]⟩ 601 0).1.stack = rest :=
  ⟨c1_pairing_lifo.1 [⟨true, true⟩] [(100, 0)] [] [(101, 500), (501, 0)] 0
      (by decide) (by decide) (by decide),
   c1_pairing_lifo.2 [⟨true, true⟩] ⟨[(100, 0)], [600], [⟨600, 0⟩]⟩ 601 0 0 (by decide)⟩

/-! ### C3 -/

/-- `findSub` returns the least index at which the pattern occurs. -/
theorem findSub_least (pat : List Char) :
    ∀ l : List Char,
      (∀ i, findSub pat l = some i →
        pat.isPrefixOf (l.drop i) = true ∧
          ∀ j < i, pat.isPrefixOf (l.drop j) = false) ∧
      (findSub pat l = none → ∀ j, pat.isPrefixOf (l.drop j) = false) := by
  intro l
  induction l with
  | nil =>
    constructor
    · intro i hi
      unfold findSub at hi
      split at hi
      · rename_i hpre
        injection hi with hi
        subst hi
        exact ⟨hpre, fun j hj => absurd hj (Nat.not_lt_zero j)⟩
      · exact absurd hi (by simp)
    · intro hn j
      unfold findSub at hn
      split at hn
      · exact absurd hn (by simp)
      · rename_i hpre
        rw [List.drop_nil]
        exact Bool.eq_false_iff.mpr hpre
  | cons c rest ih =>
    constructor
    · intro i hi
      unfold findSub at hi
      split at hi
      · rename_i hpre
        injection hi with hi
        subst hi
        exact ⟨hpre, fun j hj => absurd hj (Nat.not_lt_zero j)⟩
      · rename_i hpre
        cases hrec : findSub pat rest with
        | none => rw [hrec] at hi; exact absurd hi (by simp)
        | some i0 =>
          rw [hrec] at hi
          simp only [Option.map_some'] at hi
          injection hi with hi
          subst hi
          refine ⟨?_, ?_⟩
          · rw [List.drop_succ_cons]
            exact ((ih.1 i0 hrec).1)
          · intro j hj
            cases j with
            | zero => exact Bool.eq_false_iff.mpr hpre
            | succ j0 =>
              rw [List.drop_succ_cons]
              exact (ih.1 i0 hrec).2 j0 (Nat.lt_of_succ_lt_succ hj)
    · intro hn j
      unfold findSub at hn
      split at hn
      · exact absurd hn (by simp)
      · rename_i hpre
        cases hrec : findSub pat rest with
        | some i0 => rw [hrec] at hn; exact absurd hn (by simp)
        | none =>
          cases j with
          | zero => exact Bool.eq_false_iff.mpr hpre
          | succ j0 =>
            rw [List.drop_succ_cons]
            exact ih.2 hrec j0

/-- C3, counterexample: for the path `libc.sox.so` the basename (the whole
name) does contain `".so"` as a terminal suffix, yet `on_mmap_invoke` does
not add it to `loading_libraries`: `std::string::find(".so")` returns the
earlier, non-qualifying occurrence inside `".sox"` and the hook gives up
without looking further. -/
theorem c3_library_filter_counterexample :
    spec_library_filter ("libc.sox.so".toList) = true ∧
      on_mmap_invoke_adds ("libc.sox.so".toList) = false := by
  decide

/-- C3 (amended): a path is added to `loading_libraries` (with the pending
flag raised) iff the first occurrence of `".so"` anywhere in the full path —
not the basename — lies at the very end of the path or is immediately
followed by `'.'`; paths without any `".so"` occurrence are never added. -/
theorem c3_library_filter (p : List Char) :
    on_mmap_invoke_adds p = true ↔
      ∃ i, soExt.isPrefixOf (p.drop i) = true ∧
        (∀ j < i, soExt.isPrefixOf (p.drop j) = false) ∧
        (i + soExt.length = p.length ∨ p.getD (i + soExt.length) ' ' = '.') := by
  unfold on_mmap_invoke_adds
  cases hfind : findSub soExt p with
  | none =>
    simp only
    constructor
    · intro h; exact absurd h (by simp)
    · rintro ⟨i, hpre, -, -⟩
      exact absurd hpre (by simp [(findSub_least soExt p).2 hfind i])
  | some pos =>
    simp only
    obtain ⟨hpre0, hmin0⟩ := (findSub_least soExt p).1 pos hfind
    constructor
    · intro h
      rw [Bool.or_eq_true] at h
      refine ⟨pos, hpre0, hmin0, ?_⟩
      rcases h with h | h
      · exact Or.inl (by simpa using h)
      · exact Or.inr (by simpa using h)
    · rintro ⟨i, hpre, hmin, hdisj⟩
      have hip : i = pos := by
        rcases Nat.lt_trichotomy i pos with hlt | heq | hgt
        · exact absurd hpre (by simp [hmin0 i hlt])
        · exact heq
        · exact absurd hpre0 (by simp [hmin pos hgt])
      subst hip
      rw [Bool.or_eq_true]
      rcases hdisj with h | h
      · exact Or.inl (by simpa using h)
      · exact Or.inr (by simpa using h)

/-- C3 witness: the amended filter at a realistic versioned shared-object
path. -/
theorem c3_library_filter_witness :
    ∃ i, soExt.isPrefixOf (("/usr/lib/libc.so.6".toList).drop i) = true ∧
      (∀ j < i, soExt.isPrefixOf (("/usr/lib/libc.so.6".toList).drop j) = false) ∧
      (i + soExt.length = ("/usr/lib/libc.so.6".toList).length ∨
        ("/usr/lib/libc.so.6".toList).getD (i + soExt.length) ' ' = '.') :=
  (c3_library_filter ("/usr/lib/libc.so.6".toList)).mp (by decide)

/-! ### C4 -/

/-- Every pair the `.dynsym` walk hands to the callback is a symbol whose
name offset was checked to lie below the `.dynstr` size. -/
theorem walkDynsym_names_bounded (d : List Nat) (cb : List Nat → Nat → Bool)
    (s : Elf.ScanState) :
    ∀ remaining i, ∀ pr ∈ (Elf.walkDynsym d cb s i remaining).2,
      ∃ j, Elf.readLE d (s.dynsymOff + 24 * j) 4 < s.dynstrSize ∧
        pr.1 = Elf.readCStr d (s.dynstrOff + Elf.readLE d (s.dynsymOff + 24 * j) 4) ∧
        pr.2 = Elf.readLE d (s.dynsymOff + 24 * j + 8) 8 := by
  intro remaining
  induction remaining with
  | zero => intro i pr hpr; exact absurd hpr (List.not_mem_nil _)
  | succ rem ih =>
    intro i pr hpr
    unfold Elf.walkDynsym at hpr
    dsimp only at hpr
    split at hpr
    · exact ih (i + 1) pr hpr
    · split at hpr
      · exact absurd hpr (List.not_mem_nil _)
      · rename_i hskip hlt
        split at hpr
        · rw [List.mem_singleton] at hpr
          subst hpr
          exact ⟨i, by omega, rfl, rfl⟩
        · rcases List.mem_cons.mp hpr with h | h
          · subst h
            exact ⟨i, by omega, rfl, rfl⟩
          · exact ih (i + 1) pr h

/-- Every pair the `.rela.plt` walk hands to the callback is a relocation
whose symbol's name offset was checked to lie below the `.dynstr` size. -/
theorem walkRela_names_bounded (d : List Nat) (cb : List Nat → Nat → Bool)
    (s : Elf.ScanState) :
    ∀ remaining i, ∀ pr ∈ (Elf.walkRela d cb s i remaining).2,
      ∃ j,
        Elf.readLE d
            (s.dynsymOff + 24 * (Elf.readLE d (s.pltOff + 24 * j + 8) 8 / 2 ^ 32)) 4 <
          s.dynstrSize ∧
        pr.1 = Elf.readCStr d (s.dynstrOff +
          Elf.readLE d
            (s.dynsymOff + 24 * (Elf.readLE d (s.pltOff + 24 * j + 8) 8 / 2 ^ 32)) 4) ∧
        pr.2 = Elf.readLE d (s.pltOff + 24 * j) 8 := by
  intro remaining
  induction remaining with
  | zero => intro i pr hpr; exact absurd hpr (List.not_mem_nil _)
  | succ rem ih =>
    intro i pr hpr
    unfold Elf.walkRela at hpr
    dsimp only at hpr
    split at hpr
    · exact ih (i + 1) pr hpr
    · split at hpr
      · exact absurd hpr (List.not_mem_nil _)
      · rename_i hskip hlt
        split at hpr
        · rw [List.mem_singleton] at hpr
          subst hpr
          exact ⟨i, by omega, rfl, rfl⟩
        · rcases List.mem_cons.mp hpr with h | h
          · subst h
            exact ⟨i, by omega, rfl, rfl⟩
          · exact ih (i + 1) pr h

set_option maxRecDepth 10000 in
/-- C4, counterexample: a 100-byte all-zero buffer carries no `\x7fELF`
magic, yet `parse_elf_file` accepts it for both enumeration flavours — the
magic check lives in the caller (`setup_breakpoint`), not in the parser. -/
theorem c4_missing_magic_counterexample :
    Elf.hasElfMagic (List.replicate 100 0) = false ∧
    Elf.parse_elf_file (List.replicate 100 0) (fun _ _ => false) false = (true, []) ∧
    Elf.parse_elf_file (List.replicate 100 0) (fun _ _ => false) true = (true, []) := by
  refine ⟨by decide, ?_, ?_⟩ <;> decide

/-- C4 (amended): `parse_elf_file` returns `false` without invoking the
callback whenever the ELF header does not fit in the buffer, whenever the
section table's first entry lies past the buffer, and whenever the section
scan rejects an examined section (`elfScan` fails); every name it ever hands
to the callback comes from a symbol whose name offset was checked against
the `.dynstr` size.  The ELF magic is not inspected here: `setup_breakpoint`
tests `\x7fELF` before calling the parser. -/
theorem c4_parse_bounds (d : List Nat) (cb : List Nat → Nat → Bool) (fromRel : Bool) :
    (d.length ≤ 64 → Elf.parse_elf_file d cb fromRel = (false, [])) ∧
    (d.length ≤ Elf.e_shoff d + 64 → Elf.parse_elf_file d cb fromRel = (false, [])) ∧
    (Elf.elfScan d fromRel = none → Elf.parse_elf_file d cb fromRel = (false, [])) ∧
    (∀ s, Elf.elfScan d fromRel = some s → fromRel = false →
      ∀ pr ∈ (Elf.parse_elf_file d cb fromRel).2,
        ∃ j, Elf.readLE d (s.dynsymOff + 24 * j) 4 < s.dynstrSize ∧
          pr.1 = Elf.readCStr d (s.dynstrOff + Elf.readLE d (s.dynsymOff + 24 * j) 4) ∧
          pr.2 = Elf.readLE d (s.dynsymOff + 24 * j + 8) 8) ∧
    (∀ s, Elf.elfScan d fromRel = some s → fromRel = true →
      ∀ pr ∈ (Elf.parse_elf_file d cb fromRel).2,
        ∃ j,
          Elf.readLE d
              (s.dynsymOff + 24 * (Elf.readLE d (s.pltOff + 24 * j + 8) 8 / 2 ^ 32)) 4 <
            s.dynstrSize ∧
          pr.1 = Elf.readCStr d (s.dynstrOff +
            Elf.readLE d
              (s.dynsymOff + 24 * (Elf.readLE d (s.pltOff + 24 * j + 8) 8 / 2 ^ 32)) 4) ∧
          pr.2 = Elf.readLE d (s.pltOff + 24 * j) 8) := by
  have hscan_none : Elf.elfScan d fromRel = none →
      Elf.parse_elf_file d cb fromRel = (false, []) := by
    intro h
    unfold Elf.parse_elf_file
    rw [h]
  refine ⟨?_, ?_, hscan_none, ?_, ?_⟩
  · intro h
    refine hscan_none ?_
    unfold Elf.elfScan
    rw [if_pos h]
  · intro h
    refine hscan_none ?_
    unfold Elf.elfScan
    by_cases h64 : d.length ≤ 64
    · rw [if_pos h64]
    · rw [if_neg h64, if_pos h]
  · intro s hs hrel pr hpr
    subst hrel
    unfold Elf.parse_elf_file at hpr
    rw [hs] at hpr
    simp only [if_neg Bool.false_ne_true] at hpr
    exact walkDynsym_names_bounded d cb s s.dynsymCount 0 pr hpr
  · intro s hs hrel pr hpr
    subst hrel
    unfold Elf.parse_elf_file at hpr
    rw [hs] at hpr
    simp only [if_pos rfl] at hpr
    exact walkRela_names_bounded d cb s s.pltCount 0 pr hpr

set_option maxRecDepth 10000 in
/-- C4 witness: the failure clauses at the empty buffer, and the callback
clause at a minimal `.dynsym` buffer that emits the symbol `"f"` (bytes
`[102]`) at value 0x1234. -/
theorem c4_parse_bounds_witness :
    Elf.parse_elf_file [] (fun _ _ => false) false = (false, []) ∧
    Elf.parse_elf_file [] (fun _ _ => false) true = (false, []) ∧
    (∃ j, Elf.readLE Elf.miniElf (256 + 24 * j) 4 < 3 ∧
      ([102] : List Nat) = Elf.readCStr Elf.miniElf (280 + Elf.readLE Elf.miniElf (256 + 24 * j) 4) ∧
      0x1234 = Elf.readLE Elf.miniElf (256 + 24 * j + 8) 8) := by
  refine ⟨(c4_parse_bounds [] (fun _ _ => false) false).1 (by decide),
    (c4_parse_bounds [] (fun _ _ => false) true).2.1 (by decide), ?_⟩
  have h := (c4_parse_bounds Elf.miniElf (fun _ _ => false) false).2.2.2.1
    ⟨256, 1, 280, 3, 0, 0, 0⟩ (by decide) rfl ([102], 0x1234) (by decide)
  exact h

/-! ### Interning lemmas -/

theorem namePos_lt_length (n : String) :
    ∀ (names : List String) (i : Nat), namePos n names = some i → i < names.length := by
  intro names
  induction names with
  | nil => intro i h; exact absurd h (by simp [namePos])
  | cons m rest ih =>
    intro i h
    unfold namePos at h
    split at h
    · injection h with h
      subst h
      simp
    · cases hrec : namePos n rest with
      | none => rw [hrec] at h; exact absurd h (by simp)
      | some i0 =>
        rw [hrec] at h
        simp only [Option.map_some'] at h
        injection h with h
        have := ih i0 hrec
        simp only [List.length_cons]
        omega

theorem namePos_none_iff (n : String) :
    ∀ names : List String, namePos n names = none ↔ n ∉ names := by
  intro names
  induction names with
  | nil => simp [namePos]
  | cons m rest ih =>
    unfold namePos
    split
    · rename_i hm
      subst hm
      simp
    · rename_i hm
      cases hrec : namePos n rest with
      | none =>
        simp only [Option.map_none']
        simp only [List.mem_cons, true_iff]
        rintro (h | h)
        · exact hm h.symm
        · exact (ih.mp hrec) h
      | some i0 =>
        simp only [Option.map_some']
        constructor
        · intro h; exact absurd h (by simp)
        · intro h
          exfalso
          refine h ?_
          have : n ∈ rest := by
            by_contra hn
            rw [← ih] at hn
            rw [hn] at hrec
            exact absurd hrec (by simp)
          exact List.mem_cons_of_mem m this

theorem namePos_append_of_some (n : String) :
    ∀ (names : List String) (i : Nat), namePos n names = some i →
      ∀ ext : List String, namePos n (names ++ ext) = some i := by
  intro names
  induction names with
  | nil => intro i h; exact absurd h (by simp [namePos])
  | cons m rest ih =>
    intro i h ext
    rw [List.cons_append]
    unfold namePos at h ⊢
    split at h
    · rename_i hm
      rw [if_pos hm]
      exact h
    · rename_i hm
      rw [if_neg hm]
      cases hrec : namePos n rest with
      | none => rw [hrec] at h; exact absurd h (by simp)
      | some i0 =>
        rw [hrec] at h
        rw [ih i0 hrec ext]
        exact h

/-- A present name: `set_name_index` returns the stored index and leaves the
table untouched. -/
theorem set_name_index_of_pos (name : Option String) (names : List String) (i : Nat)
    (h : namePos (name.getD "<nil>") names = some i) :
    set_name_index name names = (name.getD "<nil>", i, names, false) := by
  simp only [set_name_index]
  rw [h]

/-- A fresh name: `set_name_index` appends it and indexes it at the table's
previous size. -/
theorem set_name_index_of_neg (name : Option String) (names : List String)
    (h : namePos (name.getD "<nil>") names = none) :
    set_name_index name names =
      (name.getD "<nil>", names.length, names ++ [name.getD "<nil>"], true) := by
  simp only [set_name_index]
  rw [h]

/-- The four facts about one `set_name_index` call the process invariant
needs: a fresh name is appended and indexed at the old size, a present name
leaves the table alone and reuses an in-range index, duplicates are never
created, and the returned index always lies inside the updated table. -/
theorem set_name_index_spec (name : Option String) (names : List String) :
    ((set_name_index name names).2.2.2 = true →
      (set_name_index name names).2.2.1 = names ++ [(set_name_index name names).1] ∧
      (set_name_index name names).2.1 = names.length ∧
      (set_name_index name names).1 ∉ names) ∧
    ((set_name_index name names).2.2.2 = false →
      (set_name_index name names).2.2.1 = names) ∧
    (names.Nodup → (set_name_index name names).2.2.1.Nodup) ∧
    (set_name_index name names).2.1 < (set_name_index name names).2.2.1.length := by
  cases hp : namePos (name.getD "<nil>") names with
  | some i =>
    rw [set_name_index_of_pos name names i hp]
    refine ⟨fun h => absurd h (by simp), fun _ => rfl, fun h => h, ?_⟩
    exact namePos_lt_length _ names i hp
  | none =>
    rw [set_name_index_of_neg name names hp]
    have hnotin : name.getD "<nil>" ∉ names := (namePos_none_iff _ names).mp hp
    refine ⟨fun _ => ⟨rfl, rfl, hnotin⟩, fun h => absurd h (by simp), ?_, ?_⟩
    · intro hnd
      simpa [List.nodup_append] using ⟨hnd, hnotin⟩
    · simp

/-! ### Stream-framing lemmas -/

theorem funcEntryNames_append (a b : List OutRec) :
    funcEntryNames (a ++ b) = funcEntryNames a ++ funcEntryNames b := by
  simp [funcEntryNames, List.filterMap_append]

theorem fileEntryNames_append (a b : List OutRec) :
    fileEntryNames (a ++ b) = fileEntryNames a ++ fileEntryNames b := by
  simp [fileEntryNames, List.filterMap_append]

theorem framedFrom_names_only (A : List OutRec) :
    ∀ nF nFl : Nat, (∀ r ∈ A, ∃ t n, r = OutRec.nameEntry t n) →
      framedFrom nF nFl A := by
  induction A with
  | nil => intro nF nFl _; trivial
  | cons r rest ih =>
    intro nF nFl hA
    cases r with
    | nameEntry t n =>
      unfold framedFrom
      exact ih _ _ fun r hr => hA r (List.mem_cons_of_mem _ hr)
    | traceRec info frames =>
      obtain ⟨t, n, h⟩ := hA _ (List.mem_cons_self _ _)
      exact absurd h (by simp)

theorem framedFrom_append (A : List OutRec) :
    ∀ (B : List OutRec) (nF nFl : Nat), framedFrom nF nFl A →
      framedFrom (nF + (funcEntryNames A).length) (nFl + (fileEntryNames A).length) B →
      framedFrom nF nFl (A ++ B) := by
  induction A with
  | nil => intro B nF nFl _ hB; simpa [funcEntryNames, fileEntryNames] using hB
  | cons r rest ih =>
    intro B nF nFl hA hB
    cases r with
    | nameEntry t n =>
      rw [List.cons_append]
      unfold framedFrom at hA ⊢
      refine ih B _ _ hA ?_
      have hfn : funcEntryNames (OutRec.nameEntry t n :: rest) =
          (if t == FUNC_NAME_ENTRY then [n] else []) ++ funcEntryNames rest := by
        by_cases ht : t = FUNC_NAME_ENTRY <;>
          simp [funcEntryNames, List.filterMap_cons, ht]
      have hfl : fileEntryNames (OutRec.nameEntry t n :: rest) =
          (if t == FILE_NAME_ENTRY then [n] else []) ++ fileEntryNames rest := by
        by_cases ht : t = FILE_NAME_ENTRY <;>
          simp [fileEntryNames, List.filterMap_cons, ht]
      have e1 : (if (t == FUNC_NAME_ENTRY) = true then nF + 1 else nF) +
          (funcEntryNames rest).length =
          nF + (funcEntryNames (OutRec.nameEntry t n :: rest)).length := by
        rw [hfn]
        by_cases ht : t = FUNC_NAME_ENTRY <;> simp [ht] <;> omega
      have e2 : (if (t == FILE_NAME_ENTRY) = true then nFl + 1 else nFl) +
          (fileEntryNames rest).length =
          nFl + (fileEntryNames (OutRec.nameEntry t n :: rest)).length := by
        rw [hfl]
        by_cases ht : t = FILE_NAME_ENTRY <;> simp [ht] <;> omega
      rw [e1, e2]
      exact hB
    | traceRec info frames =>
      rw [List.cons_append]
      unfold framedFrom at hA ⊢
      refine ⟨hA.1, ?_⟩
      refine ih B _ _ hA.2 ?_
      have hfn : funcEntryNames (OutRec.traceRec info frames :: rest) = funcEntryNames rest := by
        simp [funcEntryNames, List.filterMap_cons]
      have hfl : fileEntryNames (OutRec.traceRec info frames :: rest) = fileEntryNames rest := by
        simp [fileEntryNames, List.filterMap_cons]
      rw [hfn, hfl] at hB
      exact hB

theorem funcEntryNames_nil : funcEntryNames [] = [] := rfl

theorem fileEntryNames_nil : fileEntryNames [] = [] := rfl

theorem funcEntryNames_funcEntry (n : String) :
    funcEntryNames [OutRec.nameEntry FUNC_NAME_ENTRY n] = [n] := by
  simp [funcEntryNames]

theorem funcEntryNames_fileEntry (n : String) :
    funcEntryNames [OutRec.nameEntry FILE_NAME_ENTRY n] = [] := by
  simp [funcEntryNames, FILE_NAME_ENTRY, FUNC_NAME_ENTRY, opInvokeTag, opResultTag]

theorem fileEntryNames_funcEntry (n : String) :
    fileEntryNames [OutRec.nameEntry FUNC_NAME_ENTRY n] = [] := by
  simp [fileEntryNames, FILE_NAME_ENTRY, FUNC_NAME_ENTRY, opInvokeTag, opResultTag]

theorem fileEntryNames_fileEntry (n : String) :
    fileEntryNames [OutRec.nameEntry FILE_NAME_ENTRY n] = [n] := by
  simp [fileEntryNames]

/-- What one frame-resolution step does to the symbolisation state and the
stream: the invariant is preserved, both tables grow exactly by the names
newly framed (in emission order), only name entries are written, and a
module-known frame's indices lie inside the updated tables. -/
theorem processFrame_spec (st : ProcState) (ip : Nat) (sym : SymResult)
    (hInv : ProcInv st) :
    ProcInv (processFrame st ip sym).1 ∧
    (processFrame st ip sym).1.func_names =
      st.func_names ++ funcEntryNames (processFrame st ip sym).2.1 ∧
    (processFrame st ip sym).1.file_names =
      st.file_names ++ fileEntryNames (processFrame st ip sym).2.1 ∧
    (∀ r ∈ (processFrame st ip sym).2.1, ∃ t n, r = OutRec.nameEntry t n) ∧
    ((processFrame st ip sym).2.2.2 = true →
      (processFrame st ip sym).2.2.1.func_index <
        (processFrame st ip sym).1.func_names.length ∧
      (processFrame st ip sym).2.2.1.file_index <
        (processFrame st ip sym).1.file_names.length) := by
  obtain ⟨hndF, hndFl, hcache⟩ := hInv
  unfold processFrame
  cases hlc : lookupCache st.function_cache ip with
  | some fr =>
    dsimp only
    have hmem : ∃ p ∈ st.function_cache, p.2 = fr := by
      unfold lookupCache at hlc
      cases hf : st.function_cache.find? (fun p => p.1 == ip) with
      | none => rw [hf] at hlc; exact absurd hlc (by simp)
      | some p =>
        rw [hf] at hlc
        simp only [Option.map_some'] at hlc
        injection hlc with hlc
        exact ⟨p, List.mem_of_find?_eq_some hf, hlc⟩
    obtain ⟨p, hp, hpf⟩ := hmem
    refine ⟨⟨hndF, hndFl, hcache⟩, by simp [funcEntryNames], by simp [fileEntryNames],
      by simp, ?_⟩
    intro _
    rw [← hpf]
    exact hcache p hp
  | none =>
    cases sym with
    | noModule =>
      dsimp only
      exact ⟨⟨hndF, hndFl, hcache⟩, by simp [funcEntryNames], by simp [fileEntryNames],
        by simp, fun h => absurd h (by simp)⟩
    | found funcName fileName line col =>
      dsimp only
      obtain ⟨hFnew, hFold, hFnd, hFlt⟩ := set_name_index_spec funcName st.func_names
      obtain ⟨hLnew, hLold, hLnd, hLlt⟩ := set_name_index_spec fileName st.file_names
      have hFtab : (set_name_index funcName st.func_names).2.2.1 =
          st.func_names ++
            funcEntryNames
              ((if (set_name_index funcName st.func_names).2.2.2 then
                  [OutRec.nameEntry FUNC_NAME_ENTRY (set_name_index funcName st.func_names).1]
                else []) ++
                (if (set_name_index fileName st.file_names).2.2.2 then
                  [OutRec.nameEntry FILE_NAME_ENTRY (set_name_index fileName st.file_names).1]
                else [])) := by
        rw [funcEntryNames_append]
        cases hb : (set_name_index funcName st.func_names).2.2.2 <;>
          cases hb2 : (set_name_index fileName st.file_names).2.2.2
        · rw [hFold hb]; simp [funcEntryNames_funcEntry, funcEntryNames_fileEntry, funcEntryNames_nil]
        · rw [hFold hb]; simp [funcEntryNames_funcEntry, funcEntryNames_fileEntry, funcEntryNames_nil]
        · rw [(hFnew hb).1]; simp [funcEntryNames_funcEntry, funcEntryNames_fileEntry, funcEntryNames_nil]
        · rw [(hFnew hb).1]; simp [funcEntryNames_funcEntry, funcEntryNames_fileEntry, funcEntryNames_nil]
      have hLtab : (set_name_index fileName st.file_names).2.2.1 =
          st.file_names ++
            fileEntryNames
              ((if (set_name_index funcName st.func_names).2.2.2 then
                  [OutRec.nameEntry FUNC_NAME_ENTRY (set_name_index funcName st.func_names).1]
                else []) ++
                (if (set_name_index fileName st.file_names).2.2.2 then
                  [OutRec.nameEntry FILE_NAME_ENTRY (set_name_index fileName st.file_names).1]
                else [])) := by
        rw [fileEntryNames_append]
        cases hb : (set_name_index funcName st.func_names).2.2.2 <;>
          cases hb2 : (set_name_index fileName st.file_names).2.2.2
        · rw [hLold hb2]; simp [fileEntryNames_funcEntry, fileEntryNames_fileEntry, fileEntryNames_nil]
        · rw [(hLnew hb2).1]; simp [fileEntryNames_funcEntry, fileEntryNames_fileEntry, fileEntryNames_nil]
        · rw [hLold hb2]; simp [fileEntryNames_funcEntry, fileEntryNames_fileEntry, fileEntryNames_nil]
        · rw [(hLnew hb2).1]; simp [fileEntryNames_funcEntry, fileEntryNames_fileEntry, fileEntryNames_nil]
      have hFmono : st.func_names.length ≤ (set_name_index funcName st.func_names).2.2.1.length := by
        rw [hFtab]; simp
      have hLmono : st.file_names.length ≤ (set_name_index fileName st.file_names).2.2.1.length := by
        rw [hLtab]; simp
      refine ⟨⟨hFnd hndF, hLnd hndFl, ?_⟩, hFtab, hLtab, ?_, ?_⟩
      · intro p hp
        rcases List.mem_append.mp hp with hold | hnew
        · have := hcache p hold
          exact ⟨lt_of_lt_of_le this.1 hFmono, lt_of_lt_of_le this.2 hLmono⟩
        · rw [List.mem_singleton] at hnew
          subst hnew
          exact ⟨hFlt, hLlt⟩
      · intro r hr
        rcases List.mem_append.mp hr with h | h
        · split at h
          · rw [List.mem_singleton] at h; exact ⟨_, _, h⟩
          · exact absurd h (List.not_mem_nil _)
        · split at h
          · rw [List.mem_singleton] at h; exact ⟨_, _, h⟩
          · exact absurd h (List.not_mem_nil _)
      · intro _
        exact ⟨hFlt, hLlt⟩

/-- `processStack` over a record's frames: invariant preserved, tables grow
exactly by the framed names, the emitted prefix is name entries only, every
module-known frame's indices lie inside the final tables, and no frame slot
is dropped. -/
theorem processStack_spec (frames : List (Nat × SymResult)) :
    ∀ st : ProcState, ProcInv st →
      ProcInv (processStack st frames).1 ∧
      (processStack st frames).1.func_names =
        st.func_names ++ funcEntryNames (processStack st frames).2.1 ∧
      (processStack st frames).1.file_names =
        st.file_names ++ fileEntryNames (processStack st frames).2.1 ∧
      (∀ r ∈ (processStack st frames).2.1, ∃ t n, r = OutRec.nameEntry t n) ∧
      (∀ p ∈ (processStack st frames).2.2, p.2 = true →
        p.1.func_index < (processStack st frames).1.func_names.length ∧
        p.1.file_index < (processStack st frames).1.file_names.length) ∧
      (processStack st frames).2.2.length = frames.length := by
  induction frames with
  | nil =>
    intro st hInv
    exact ⟨hInv, by simp [processStack, funcEntryNames_nil],
      by simp [processStack, fileEntryNames_nil], by simp [processStack],
      by simp [processStack], by simp [processStack]⟩
  | cons f rest ih =>
    intro st hInv
    obtain ⟨ip, sym⟩ := f
    obtain ⟨h1, h2, h3, h4, h5⟩ := processFrame_spec st ip sym hInv
    obtain ⟨g1, g2, g3, g4, g5, g6⟩ := ih (processFrame st ip sym).1 h1
    have hFmono : (processFrame st ip sym).1.func_names.length ≤
        (processStack (processFrame st ip sym).1 rest).1.func_names.length := by
      rw [g2]; simp
    have hLmono : (processFrame st ip sym).1.file_names.length ≤
        (processStack (processFrame st ip sym).1 rest).1.file_names.length := by
      rw [g3]; simp
    unfold processStack
    dsimp only
    refine ⟨g1, ?_, ?_, ?_, ?_, ?_⟩
    · rw [funcEntryNames_append, g2, h2, List.append_assoc]
    · rw [fileEntryNames_append, g3, h3, List.append_assoc]
    · intro r hr
      rcases List.mem_append.mp hr with h | h
      · exact h4 r h
      · exact g4 r h
    · intro p hp hknown
      rcases List.mem_cons.mp hp with h | h
      · subst h
        have := h5 hknown
        exact ⟨lt_of_lt_of_le this.1 hFmono, lt_of_lt_of_le this.2 hLmono⟩
      · exact g5 p h hknown
    · simp [g6]

/-- `TraceData::process` on one record: the framing entries it writes always
precede the event record, so the stream stays `framedFrom`-consistent. -/
theorem process_spec (st : ProcState) (info : TraceInfo) (syms : List SymResult)
    (hInv : ProcInv st) :
    ProcInv (TraceData.process st info syms).1 ∧
    (TraceData.process st info syms).1.func_names =
      st.func_names ++ funcEntryNames (TraceData.process st info syms).2 ∧
    (TraceData.process st info syms).1.file_names =
      st.file_names ++ fileEntryNames (TraceData.process st info syms).2 ∧
    framedFrom st.func_names.length st.file_names.length
      (TraceData.process st info syms).2 := by
  obtain ⟨g1, g2, g3, g4, g5, g6⟩ :=
    processStack_spec (info.stack.zip syms) st hInv
  have htrF : funcEntryNames
      [OutRec.traceRec info (processStack st (info.stack.zip syms)).2.2] = [] := by
    simp [funcEntryNames]
  have htrL : fileEntryNames
      [OutRec.traceRec info (processStack st (info.stack.zip syms)).2.2] = [] := by
    simp [fileEntryNames]
  unfold TraceData.process
  dsimp only
  refine ⟨g1, ?_, ?_, ?_⟩
  · rw [funcEntryNames_append, htrF, g2]
    simp
  · rw [fileEntryNames_append, htrL, g3]
    simp
  · refine framedFrom_append _ _ _ _ (framedFrom_names_only _ _ _ g4) ?_
    have hlenF : st.func_names.length + (funcEntryNames (processStack st (info.stack.zip syms)).2.1).length =
        (processStack st (info.stack.zip syms)).1.func_names.length := by
      rw [g2]; simp
    have hlenL : st.file_names.length + (fileEntryNames (processStack st (info.stack.zip syms)).2.1).length =
        (processStack st (info.stack.zip syms)).1.file_names.length := by
      rw [g3]; simp
    rw [hlenF, hlenL]
    exact ⟨fun p hp hk => g5 p hp hk, trivial⟩

/-- The worker's whole run: the invariant holds throughout, the name tables
are exactly the names framed on the stream, and the stream is
`framedFrom`-consistent relative to the starting counts. -/
theorem processRun_spec (records : List (TraceInfo × List SymResult)) :
    ∀ st : ProcState, ProcInv st →
      ProcInv (processRun st records).1 ∧
      (processRun st records).1.func_names =
        st.func_names ++ funcEntryNames (processRun st records).2 ∧
      (processRun st records).1.file_names =
        st.file_names ++ fileEntryNames (processRun st records).2 ∧
      framedFrom st.func_names.length st.file_names.length (processRun st records).2 := by
  induction records with
  | nil =>
    intro st hInv
    exact ⟨hInv, by simp [processRun, funcEntryNames_nil],
      by simp [processRun, fileEntryNames_nil], by simp [processRun, framedFrom]⟩
  | cons r rest ih =>
    intro st hInv
    obtain ⟨info, syms⟩ := r
    obtain ⟨h1, h2, h3, h4⟩ := process_spec st info syms hInv
    obtain ⟨g1, g2, g3, g4⟩ := ih (TraceData.process st info syms).1 h1
    unfold processRun
    dsimp only
    refine ⟨g1, ?_, ?_, ?_⟩
    · rw [funcEntryNames_append, g2, h2, List.append_assoc]
    · rw [fileEntryNames_append, g3, h3, List.append_assoc]
    · refine framedFrom_append _ _ _ _ h4 ?_
      have hlenF : st.func_names.length +
          (funcEntryNames (TraceData.process st info syms).2).length =
          (TraceData.process st info syms).1.func_names.length := by
        rw [h2]; simp
      have hlenL : st.file_names.length +
          (fileEntryNames (TraceData.process st info syms).2).length =
          (TraceData.process st info syms).1.file_names.length := by
        rw [h3]; simp
      rw [hlenF, hlenL]
      exact g4

/-- `ProcInv` holds at the record store's initial state. -/
theorem initProcState_inv : ProcInv initProcState :=
  ⟨List.nodup_nil, List.nodup_nil, fun p hp => absurd hp (List.not_mem_nil p)⟩

theorem namePos_append_self (n : String) :
    ∀ names : List String, namePos n names = none →
      namePos n (names ++ [n]) = some names.length := by
  intro names
  induction names with
  | nil => intro _; simp [namePos]
  | cons m rest ih =>
    intro h
    unfold namePos at h
    rw [List.cons_append]
    unfold namePos
    split at h
    · exact absurd h (by simp)
    · rename_i hm
      rw [if_neg hm]
      cases hrec : namePos n rest with
      | some i => rw [hrec] at h; exact absurd h (by simp)
      | none => rw [ih hrec]; simp

/-! ### C5 -/

/-- C5: for each of the two name tables, interning is dense and stable — a
fresh name receives the table's current size as its index (the k-th distinct
name gets k-1) and is appended, a present name returns its stored position
with the table unchanged, so names are never renamed or removed; and over
any worker run from the initial state, the tables coincide with the framed
names on the stream, each distinct name is framed exactly once, and every
event's module-known frame references only indices with a preceding framing
record of the matching marker (`framedFrom 0 0`). -/
theorem c5_interning_framing :
    (∀ (name : Option String) (names : List String),
      (namePos (name.getD "<nil>") names = none →
        set_name_index name names =
          (name.getD "<nil>", names.length, names ++ [name.getD "<nil>"], true)) ∧
      (∀ i, namePos (name.getD "<nil>") names = some i →
        set_name_index name names = (name.getD "<nil>", i, names, false))) ∧
    (∀ records : List (TraceInfo × List SymResult),
      (processRun initProcState records).1.func_names =
        funcEntryNames (processRun initProcState records).2 ∧
      (processRun initProcState records).1.file_names =
        fileEntryNames (processRun initProcState records).2 ∧
      (funcEntryNames (processRun initProcState records).2).Nodup ∧
      (fileEntryNames (processRun initProcState records).2).Nodup ∧
      framedFrom 0 0 (processRun initProcState records).2) := by
  constructor
  · intro name names
    exact ⟨set_name_index_of_neg name names, fun i => set_name_index_of_pos name names i⟩
  · intro records
    obtain ⟨hInv, h2, h3, h4⟩ := processRun_spec records initProcState initProcState_inv
    have e2 : (processRun initProcState records).1.func_names =
        funcEntryNames (processRun initProcState records).2 := by
      rw [h2]; rfl
    have e3 : (processRun initProcState records).1.file_names =
        fileEntryNames (processRun initProcState records).2 := by
      rw [h3]; rfl
    refine ⟨e2, e3, ?_, ?_, h4⟩
    · rw [← e2]; exact hInv.1
    · rw [← e3]; exact hInv.2.1

/-- C5 witness: a fresh and a present interning at concrete tables. -/
theorem c5_interning_framing_witness :
    set_name_index (some "f") ["a"] = ("f", 1, ["a", "f"], true) ∧
    set_name_index (some "a") ["a", "f"] = ("a", 0, ["a", "f"], false) :=
  ⟨(c5_interning_framing.1 (some "f") ["a"]).1 (by decide),
   (c5_interning_framing.1 (some "a") ["a", "f"]).2 0 (by decide)⟩

/-- `processStack` never drops a frame slot, no hypotheses needed. -/
theorem processStack_length (frames : List (Nat × SymResult)) :
    ∀ st : ProcState, (processStack st frames).2.2.length = frames.length := by
  induction frames with
  | nil => intro st; rfl
  | cons f rest ih =>
    intro st
    obtain ⟨ip, sym⟩ := f
    unfold processStack
    dsimp only
    simp [ih]

/-! ### C10 -/

/-- C10: a null function or file name from the symboliser is interned as the
literal `"<nil>"`; all such frames share that single index (the position of
`"<nil>"` in the respective table, stable under later growth), at most one
`"<nil>"` framing record is ever emitted per table, and the frame itself is
kept — `processStack` drops no slot — and serialised with that index. -/
theorem c10_nil_name_interning :
    (∀ names : List String, (set_name_index none names).1 = "<nil>") ∧
    (∀ (st : ProcState) (ip : Nat) (fileName : Option String) (line col : Int),
      lookupCache st.function_cache ip = none →
      (processFrame st ip (SymResult.found none fileName line col)).2.2.2 = true ∧
      namePos "<nil>"
          (processFrame st ip (SymResult.found none fileName line col)).1.func_names =
        some (processFrame st ip (SymResult.found none fileName line col)).2.2.1.func_index) ∧
    (∀ (st : ProcState) (ip : Nat) (funcName : Option String) (line col : Int),
      lookupCache st.function_cache ip = none →
      namePos "<nil>"
          (processFrame st ip (SymResult.found funcName none line col)).1.file_names =
        some (processFrame st ip (SymResult.found funcName none line col)).2.2.1.file_index) ∧
    (∀ (names : List String) (i : Nat), namePos "<nil>" names = some i →
      ∀ ext, namePos "<nil>" (names ++ ext) = some i) ∧
    (∀ (st : ProcState) (frames : List (Nat × SymResult)),
      (processStack st frames).2.2.length = frames.length) ∧
    (∀ records : List (TraceInfo × List SymResult),
      (funcEntryNames (processRun initProcState records).2).count "<nil>" ≤ 1 ∧
      (fileEntryNames (processRun initProcState records).2).count "<nil>" ≤ 1) := by
  refine ⟨?_, ?_, ?_, fun names i h ext => namePos_append_of_some "<nil>" names i h ext, ?_, ?_⟩
  · intro names
    cases hp : namePos "<nil>" names with
    | some i =>
      rw [set_name_index_of_pos none names i hp]
      rfl
    | none =>
      rw [set_name_index_of_neg none names hp]
      rfl
  · intro st ip fileName line col hlc
    unfold processFrame
    rw [hlc]
    dsimp only
    refine ⟨rfl, ?_⟩
    cases hp : namePos "<nil>" st.func_names with
    | some i =>
      rw [set_name_index_of_pos none st.func_names i hp]
      exact hp
    | none =>
      rw [set_name_index_of_neg none st.func_names hp]
      exact namePos_append_self "<nil>" st.func_names hp
  · intro st ip funcName line col hlc
    unfold processFrame
    rw [hlc]
    dsimp only
    cases hp : namePos "<nil>" st.file_names with
    | some i =>
      rw [set_name_index_of_pos none st.file_names i hp]
      exact hp
    | none =>
      rw [set_name_index_of_neg none st.file_names hp]
      exact namePos_append_self "<nil>" st.file_names hp
  · intro st frames
    exact processStack_length frames st
  · intro records
    obtain ⟨hInv, h2, h3, _⟩ := processRun_spec records initProcState initProcState_inv
    have e2 : (processRun initProcState records).1.func_names =
        funcEntryNames (processRun initProcState records).2 := by
      rw [h2]; rfl
    have e3 : (processRun initProcState records).1.file_names =
        fileEntryNames (processRun initProcState records).2 := by
      rw [h3]; rfl
    constructor
    · have := hInv.1
      rw [e2] at this
      exact List.nodup_iff_count_le_one.mp this "<nil>"
    · have := hInv.2.1
      rw [e3] at this
      exact List.nodup_iff_count_le_one.mp this "<nil>"

/-- C10 witness: an uncached frame with a null function name (and another
with a null file name) at the initial state, and position stability of
`"<nil>"` under table growth. -/
theorem c10_nil_name_interning_witness :
    ((processFrame initProcState 7 (SymResult.found none (some "a.c") 3 1)).2.2.2 = true ∧
      namePos "<nil>"
          (processFrame initProcState 7 (SymResult.found none (some "a.c") 3 1)).1.func_names =
        some (processFrame initProcState 7
          (SymResult.found none (some "a.c") 3 1)).2.2.1.func_index) ∧
    namePos "<nil>"
        (processFrame initProcState 7 (SymResult.found (some "g") none 3 1)).1.file_names =
      some (processFrame initProcState 7
        (SymResult.found (some "g") none 3 1)).2.2.1.file_index ∧
    namePos "<nil>" (["<nil>"] ++ ["z"]) = some 0 :=
  ⟨c10_nil_name_interning.2.1 initProcState 7 (some "a.c") 3 1 (by decide),
   c10_nil_name_interning.2.2.1 initProcState 7 (some "g") 3 1 (by decide),
   c10_nil_name_interning.2.2.2.1 ["<nil>"] 0 (by decide) ["z"]⟩

end MemProfiler
